import Mathlib

/-!
Verification of the config-wizard repository: a shallow embedding of the
schema model (`config_wizard/schema.py`), the type classifier
(`config_wizard/mapper.py`), the utility layer (`config_wizard/utils.py`)
and the rendering engine (`config_wizard/backends/base.py` and
`config_wizard/backends/streamlit.py`), together with theorems settling the
specification claims.
-/

set_option maxRecDepth 10000

/-- A JSON value, as manipulated by the Python code (dicts are modelled as
association lists preserving insertion order, mirroring Python dicts). -/
inductive JValue where
  | null : JValue
  | bool : Bool → JValue
  | int : Int → JValue
  | str : String → JValue
  | arr : List JValue → JValue
  | obj : List (String × JValue) → JValue
deriving Repr

/-- `additionalProperties` in a schema node: a boolean or a sub-schema
(`None` is modelled by `Option.none` at the use site). -/
inductive APValue (σ : Type) where
  | bool : Bool → APValue σ
  | schema : σ → APValue σ
deriving Repr

/-- The schema node model: the fields of `openapi_pydantic.Schema` /
`ResolvedSchema` that the embedded code reads.  Falsy Python defaults
(`None`, `[]`, `False`, `""`) are the natural Lean defaults.
Field order: type, schema_format, enum, discriminator (propertyName),
anyOf, oneOf, prefixItems, uniqueItems, properties, additionalProperties,
readOnly, minItems, maxItems, required, title, const, default. -/
inductive Schema where
  | mk :
      (type : Option String) →
      (schema_format : Option String) →
      (enum : List JValue) →
      (discriminator : Option String) →
      (anyOf : List Schema) →
      (oneOf : List Schema) →
      (prefixItems : List Schema) →
      (uniqueItems : Bool) →
      (properties : List (String × Schema)) →
      (additionalProperties : Option (APValue Schema)) →
      (readOnly : Bool) →
      (minItems : Option Nat) →
      (maxItems : Option Nat) →
      (required : List String) →
      (title : String) →
      (const : Option JValue) →
      (defaultValue : Option JValue) →
      Schema
deriving Repr

namespace Schema

def type : Schema → Option String
  | .mk t _ _ _ _ _ _ _ _ _ _ _ _ _ _ _ _ => t

def schema_format : Schema → Option String
  | .mk _ f _ _ _ _ _ _ _ _ _ _ _ _ _ _ _ => f

def enum : Schema → List JValue
  | .mk _ _ e _ _ _ _ _ _ _ _ _ _ _ _ _ _ => e

def discriminator : Schema → Option String
  | .mk _ _ _ d _ _ _ _ _ _ _ _ _ _ _ _ _ => d

def anyOf : Schema → List Schema
  | .mk _ _ _ _ a _ _ _ _ _ _ _ _ _ _ _ _ => a

def oneOf : Schema → List Schema
  | .mk _ _ _ _ _ o _ _ _ _ _ _ _ _ _ _ _ => o

def prefixItems : Schema → List Schema
  | .mk _ _ _ _ _ _ p _ _ _ _ _ _ _ _ _ _ => p

def uniqueItems : Schema → Bool
  | .mk _ _ _ _ _ _ _ u _ _ _ _ _ _ _ _ _ => u

def properties : Schema → List (String × Schema)
  | .mk _ _ _ _ _ _ _ _ ps _ _ _ _ _ _ _ _ => ps

def additionalProperties : Schema → Option (APValue Schema)
  | .mk _ _ _ _ _ _ _ _ _ ap _ _ _ _ _ _ _ => ap

def readOnly : Schema → Bool
  | .mk _ _ _ _ _ _ _ _ _ _ r _ _ _ _ _ _ => r

def minItems : Schema → Option Nat
  | .mk _ _ _ _ _ _ _ _ _ _ _ mn _ _ _ _ _ => mn

def maxItems : Schema → Option Nat
  | .mk _ _ _ _ _ _ _ _ _ _ _ _ mx _ _ _ _ => mx

def required : Schema → List String
  | .mk _ _ _ _ _ _ _ _ _ _ _ _ _ req _ _ _ => req

def title : Schema → String
  | .mk _ _ _ _ _ _ _ _ _ _ _ _ _ _ t _ _ => t

def const : Schema → Option JValue
  | .mk _ _ _ _ _ _ _ _ _ _ _ _ _ _ _ c _ => c

def defaultValue : Schema → Option JValue
  | .mk _ _ _ _ _ _ _ _ _ _ _ _ _ _ _ _ d => d

/-- A schema with every field at its falsy Python default. -/
def empty : Schema :=
  .mk none none [] none [] [] [] false [] none false none none [] "" none none

/-- Replace the `title` field (models the in-place mutation
`prop.title = ...` in `render_schema`). -/
def withTitle (t : String) : Schema → Schema
  | .mk ty f e d a o p u ps ap r mn mx req _ c df =>
      .mk ty f e d a o p u ps ap r mn mx req t c df

/-- Replace the `properties` field. -/
def withProperties (ps : List (String × Schema)) : Schema → Schema
  | .mk ty f e d a o p u _ ap r mn mx req t c df =>
      .mk ty f e d a o p u ps ap r mn mx req t c df

/-- Truthiness of the Python `additionalProperties` attribute: `None` and
`False` are falsy; `True` and any schema object are truthy. -/
def apTruthy : Option (APValue Schema) → Bool
  | none => false
  | some (.bool b) => b
  | some (.schema _) => true

end Schema

/-- `InputType` from `config_wizard/mapper.py`: the closed enumeration of
semantic input kinds. -/
inductive InputType where
  | text | email | password | uri | uuid | file_path | directory_path
  | ipv4 | ipv6
  | integer | float
  | date | time | datetime | duration
  | boolean
  | enum
  | list | tuple | set | dict | object | union | discriminated_union
  | any | null
deriving DecidableEq, Repr

/-- `InputType.is_complex` from `config_wizard/mapper.py`. -/
def InputType.is_complex : InputType → Bool
  | .list | .tuple | .set | .dict | .object | .union | .discriminated_union => true
  | _ => false

/-- `property_to_input_type` from `config_wizard/mapper.py` (lines 68-131),
translated clause by clause: enum, discriminator, anyOf/oneOf checks first,
then dispatch on the declared `type`; for strings, dispatch on
`schema_format` (only email/password/uri/uuid/ipv4/ipv6 are matched, every
other or absent format falls to the default `text` arm). -/
def property_to_input_type (prop : Schema) : InputType :=
  if !prop.enum.isEmpty then .enum
  else if prop.discriminator.isSome then .discriminated_union
  else if !prop.anyOf.isEmpty || !prop.oneOf.isEmpty then .union
  else
    match prop.type with
    | some "string" =>
        match prop.schema_format with
        | some "email" => .email
        | some "password" => .password
        | some "uri" => .uri
        | some "uuid" => .uuid
        | some "ipv4" => .ipv4
        | some "ipv6" => .ipv6
        | _ => .text
    | some "number" => .float
    | some "integer" => .integer
    | some "boolean" => .boolean
    | some "array" =>
        if !prop.prefixItems.isEmpty then .tuple
        else if prop.uniqueItems then .set
        else .list
    | some "object" =>
        if !prop.properties.isEmpty then .object
        else if Schema.apTruthy prop.additionalProperties then .dict
        else .any
    | some "null" => .null
    | _ => .any

example :
    property_to_input_type
      (Schema.empty.withProperties [("key", Schema.empty)]) = .any := by
  decide

example :
    property_to_input_type
      (.mk (some "string") (some "email") [] none [] [] [] false [] none
        false none none [] "" none none) = .email := by
  decide

/-- A string-typed schema node with the given `format` and no enum,
discriminator, anyOf or oneOf (the shape discussed by the classifier's
string arm). -/
def strFormatSchema (f : Option String) : Schema :=
  .mk (some "string") f [] none [] [] [] false [] none false none none [] "" none none

/-- The dispatch table of `StreamlitSettingsWizard._render_property`
(`backends/streamlit.py` lines 866-904): which `InputType`s have a handler
arm in the `match`.  Every member of the enumeration except `duration` is
named by some arm. -/
def handled_input_types : InputType → Bool
  | .enum => true
  | .date | .datetime | .time => true
  | .boolean => true
  | .integer | .float => true
  | .text | .password | .email | .uuid | .uri
  | .ipv4 | .ipv6 | .file_path | .directory_path => true
  | .list | .tuple | .set => true
  | .dict => true
  | .object => true
  | .union | .discriminated_union => true
  | .null => true
  | .any => true
  | .duration => false

/-- C1 counterexample: a string-typed node without enum, discriminator or
anyOf/oneOf whose format is `file_path` is classified as `text`, not as the
like-named kind `file_path` — the classifier's string arm only matches the
six formats email/password/uri/uuid/ipv4/ipv6. -/
theorem property_to_input_type_file_path_is_text :
    property_to_input_type (strFormatSchema (some "file_path")) = InputType.text ∧
      InputType.text ≠ InputType.file_path := by
  decide

/-- C1 (amended): a string-typed node (no enum/discriminator/anyOf/oneOf)
with format email/password/uri/uuid/ipv4/ipv6 is classified as the
like-named kind, and any other or absent format (including `file_path` and
`directory_path`) yields `text`; for every `InputType` other than
`date`, `time`, `datetime`, `duration`, `file_path` and `directory_path`
there is a schema shaped for exactly that kind that
`property_to_input_type` maps to it. -/
theorem property_to_input_type_classification :
    (property_to_input_type (strFormatSchema (some "email")) = .email ∧
     property_to_input_type (strFormatSchema (some "password")) = .password ∧
     property_to_input_type (strFormatSchema (some "uri")) = .uri ∧
     property_to_input_type (strFormatSchema (some "uuid")) = .uuid ∧
     property_to_input_type (strFormatSchema (some "ipv4")) = .ipv4 ∧
     property_to_input_type (strFormatSchema (some "ipv6")) = .ipv6) ∧
    (∀ f : Option String,
      f ∉ ([some "email", some "password", some "uri", some "uuid",
            some "ipv4", some "ipv6"] : List (Option String)) →
      property_to_input_type (strFormatSchema f) = .text) ∧
    (∀ t : InputType,
      t ∉ ([.date, .time, .datetime, .duration, .file_path,
            .directory_path] : List InputType) →
      ∃ s : Schema, property_to_input_type s = t) := by
  refine ⟨by decide, ?_, ?_⟩
  · intro f hf
    match f with
    | none => decide
    | some s =>
      simp only [List.mem_cons, List.not_mem_nil, or_false, not_or] at hf
      obtain ⟨h1, h2, h3, h4, h5, h6⟩ := hf
      simp only [property_to_input_type, strFormatSchema, Schema.enum,
        List.isEmpty_nil, Bool.not_true, Bool.false_eq_true, if_false,
        Schema.discriminator, Option.isSome_none, Schema.anyOf, Schema.oneOf,
        Schema.type, Schema.schema_format]
      split
      all_goals simp_all
  · intro t ht
    cases t
    case text => exact ⟨strFormatSchema none, by decide⟩
    case email => exact ⟨strFormatSchema (some "email"), by decide⟩
    case password => exact ⟨strFormatSchema (some "password"), by decide⟩
    case uri => exact ⟨strFormatSchema (some "uri"), by decide⟩
    case uuid => exact ⟨strFormatSchema (some "uuid"), by decide⟩
    case ipv4 => exact ⟨strFormatSchema (some "ipv4"), by decide⟩
    case ipv6 => exact ⟨strFormatSchema (some "ipv6"), by decide⟩
    case file_path => exact absurd (by decide) ht
    case directory_path => exact absurd (by decide) ht
    case date => exact absurd (by decide) ht
    case time => exact absurd (by decide) ht
    case datetime => exact absurd (by decide) ht
    case duration => exact absurd (by decide) ht
    case integer =>
      exact ⟨.mk (some "integer") none [] none [] [] [] false [] none false
        none none [] "" none none, by decide⟩
    case float =>
      exact ⟨.mk (some "number") none [] none [] [] [] false [] none false
        none none [] "" none none, by decide⟩
    case boolean =>
      exact ⟨.mk (some "boolean") none [] none [] [] [] false [] none false
        none none [] "" none none, by decide⟩
    case enum =>
      exact ⟨.mk none none [.str "value1"] none [] [] [] false [] none false
        none none [] "" none none, by decide⟩
    case list =>
      exact ⟨.mk (some "array") none [] none [] [] [] false [] none false
        none none [] "" none none, by decide⟩
    case tuple =>
      exact ⟨.mk (some "array") none [] none [] [] [Schema.empty] false []
        none false none none [] "" none none, by decide⟩
    case set =>
      exact ⟨.mk (some "array") none [] none [] [] [] true [] none false
        none none [] "" none none, by decide⟩
    case dict =>
      exact ⟨.mk (some "object") none [] none [] [] [] false []
        (some (.bool true)) false none none [] "" none none, by decide⟩
    case object =>
      exact ⟨.mk (some "object") none [] none [] [] [] false
        [("key", Schema.empty)] none false none none [] "" none none, by decide⟩
    case union =>
      exact ⟨.mk none none [] none [Schema.empty] [] [] false [] none false
        none none [] "" none none, by decide⟩
    case discriminated_union =>
      exact ⟨.mk none none [] (some "kind") [] [] [] false [] none false
        none none [] "" none none, by decide⟩
    case any => exact ⟨Schema.empty, by decide⟩
    case null =>
      exact ⟨.mk (some "null") none [] none [] [] [] false [] none false
        none none [] "" none none, by decide⟩

/-- C1 witness: the totality conjunct applied at the concrete kind `set`. -/
theorem property_to_input_type_classification_witness :
    ∃ s : Schema, property_to_input_type s = InputType.set :=
  property_to_input_type_classification.2.2 InputType.set (by decide)

/-- C10: the classifier never returns `duration` (the only member of the
enumeration with no handler arm in `_render_property`'s dispatch), every
other kind is handled, and hence every classified schema reaches a handler
arm — the unsupported-input-kind fall-through (warning plus
`NotImplementedError`) is unreachable for any classified schema. -/
theorem render_property_dispatch_total :
    (∀ s : Schema, property_to_input_type s ≠ InputType.duration) ∧
    (∀ t : InputType, t ≠ InputType.duration → handled_input_types t = true) ∧
    (∀ s : Schema, handled_input_types (property_to_input_type s) = true) := by
  have hh : ∀ s : Schema, handled_input_types (property_to_input_type s) = true := by
    intro s
    unfold property_to_input_type
    repeat' split
    all_goals rfl
  refine ⟨?_, ?_, hh⟩
  · intro s h
    have := hh s
    rw [h] at this
    simp [handled_input_types] at this
  · intro t ht
    cases t <;> simp_all [handled_input_types]

/-- C10 witness: the second conjunct applied at the concrete kind `set`,
and the classifier-never-duration conjunct at a concrete schema. -/
theorem render_property_dispatch_total_witness :
    handled_input_types InputType.set = true ∧
      property_to_input_type Schema.empty ≠ InputType.duration :=
  ⟨render_property_dispatch_total.2.1 InputType.set (by decide),
   render_property_dispatch_total.1 Schema.empty⟩

/-- `_is_add_button_disabled` from `backends/streamlit.py` (lines 63-71):
disabled when the schema is read-only or the current length has reached
`maxItems`. -/
def is_add_button_disabled (property_schema : Schema) (current_length : Nat) : Bool :=
  if property_schema.readOnly then true
  else
    match property_schema.maxItems with
    | some mx => current_length ≥ mx
    | none => false

/-- `_is_clear_button_disabled` from `backends/streamlit.py` (lines 74-79),
translated exactly as written: returns `False` when the schema is
read-only and `True` otherwise. -/
def is_clear_button_disabled (property_schema : Schema) : Bool :=
  if property_schema.readOnly then false
  else true

/-- `_is_remove_button_disabled` from `backends/streamlit.py` (lines 82-90):
disabled when the schema is read-only or removing would breach `minItems`. -/
def is_remove_button_disabled (property_schema : Schema) (current_length : Nat) : Bool :=
  if property_schema.readOnly then true
  else
    match property_schema.minItems with
    | some mn => current_length ≤ mn
    | none => false

/-- C4: the add and remove actions are disabled exactly as the claim states
(read-only, or `maxItems` reached / `minItems` would be breached), but the
clear action's predicate is inverted in the code: at the concrete non
read-only schema `Schema.empty` the clear action is disabled, and at the
read-only schema it is enabled — the code contradicts the claim (and its
sibling helpers) exactly at the read-only test. -/
theorem collection_buttons_disabled_eval :
    (∀ (s : Schema) (n : Nat),
      is_add_button_disabled s n =
        (s.readOnly || (s.maxItems.elim false (fun mx => decide (n ≥ mx))))) ∧
    (∀ (s : Schema) (n : Nat),
      is_remove_button_disabled s n =
        (s.readOnly || (s.minItems.elim false (fun mn => decide (n ≤ mn))))) ∧
    is_clear_button_disabled Schema.empty = true ∧
    is_clear_button_disabled
      (.mk none none [] none [] [] [] false [] none true none none [] "" none none) =
      false := by
  refine ⟨?_, ?_, by decide, by decide⟩
  · intro s n
    unfold is_add_button_disabled
    cases h : s.readOnly
    · simp only [h, Bool.false_or, if_false]
      cases s.maxItems <;> simp
    · simp [h]
  · intro s n
    unfold is_remove_button_disabled
    cases h : s.readOnly
    · simp only [h, Bool.false_or, if_false]
      cases s.minItems <;> simp
    · simp [h]

/-- Association-list lookup mirroring Python `dict` key lookup. -/
def lookupA {α : Type} (k : String) : List (String × α) → Option α
  | [] => none
  | (k', v) :: rest => if k' = k then some v else lookupA k rest

/-- Splitting a character list at every occurrence of a separator
character, mirroring Python `str.split(sep)` for a one-character
separator: no run collapsing, and the empty string yields `[""]`. -/
def splitOnChar (sep : Char) : List Char → List (List Char)
  | [] => [[]]
  | c :: rest =>
      match splitOnChar sep rest with
      | [] => if c = sep then [[], [c]] else [[c]]
      | seg :: segs =>
          if c = sep then [] :: seg :: segs else (c :: seg) :: segs

/-- Python `s.split(sep)` for a one-character separator. -/
def pySplit (sep : Char) (s : String) : List String :=
  (splitOnChar sep s.data).map (fun cs => ⟨cs⟩)

/-- The trailing path segment of a `$ref` string:
`obj["$ref"].split("/")[-1]` in `resolve_refs._resolve`. -/
def refTrailing (r : String) : String :=
  (pySplit '/' r).getLastD ""

example : pySplit '/' "#/$defs/A" = ["#", "$defs", "A"] := by decide
example : refTrailing "#/$defs/A" = "A" := by decide
example : pySplit '.' "" = [""] := by decide
example : pySplit '.' "a..b" = ["a", "", "b"] := by decide

/-- Errors of schema reference resolution (`config_wizard/schema.py`):
`refNotFound name` models the `KeyError(f"Reference '{name}' not found in
ref_map.")` (the spec's ReferenceNotFoundError, naming the missing
reference); `circular` models the `RecursionError` caught and re-raised as
`ValueError("Circular reference detected in schema resolution.")` (the
spec's CircularReferenceError); `badRef` models the uncaught Python
`AttributeError` when a `$ref` value is not a string. -/
inductive RErr where
  | refNotFound : String → RErr
  | circular : RErr
  | badRef : RErr
deriving DecidableEq, Repr

/-- Resolution of a list's items in order (`[_resolve(item) for item in
obj]`), with the item resolver passed in. -/
def exceptMapList (f : JValue → Except RErr JValue) :
    List JValue → Except RErr (List JValue)
  | [] => .ok []
  | v :: rest => do
      let v' ← f v
      let rest' ← exceptMapList f rest
      pure (v' :: rest')

/-- Resolution of a dict's entries in order (`{k: _resolve(v) for k, v in
obj.items()}`), with the value resolver passed in. -/
def exceptMapPairs (f : JValue → Except RErr JValue) :
    List (String × JValue) → Except RErr (List (String × JValue))
  | [] => .ok []
  | (k, v) :: rest => do
      let v' ← f v
      let rest' ← exceptMapPairs f rest
      pure ((k, v') :: rest')

/-- `resolve_refs._resolve` from `config_wizard/schema.py` (lines 105-118),
with the Python recursion-depth limit made explicit as fuel: every
recursive call descends one level, and exhausting the bounded depth yields
the circular-reference error exactly as the caught `RecursionError` does.
A dict containing `"$ref"` is replaced by the resolution of the map entry
named by the trailing path segment (its sibling keys are discarded, as in
the source); other dicts and lists are traversed recursively; scalar
leaves pass through unchanged. -/
def resolveRefs (refMap : List (String × JValue)) : Nat → JValue → Except RErr JValue
  | 0, _ => .error .circular
  | fuel + 1, v =>
    match v with
    | .obj kvs =>
        match lookupA "$ref" kvs with
        | some (.str r) =>
            match lookupA (refTrailing r) refMap with
            | some target => resolveRefs refMap fuel target
            | none => .error (.refNotFound (refTrailing r))
        | some _ => .error .badRef
        | none => (exceptMapPairs (resolveRefs refMap fuel) kvs).map .obj
    | .arr items => (exceptMapList (resolveRefs refMap fuel) items).map .arr
    | other => .ok other

example :
    resolveRefs [("D", .obj [("type", .str "string")])] 5
      (.obj [("a", .obj [("$ref", .str "#/$defs/D")])]) =
    .ok (.obj [("a", .obj [("type", .str "string")])]) := by
  simp +decide [resolveRefs, lookupA, refTrailing, pySplit, splitOnChar,
    exceptMapPairs, Except.map, bind, Except.bind, pure, Except.pure]

mutual

/-- `true` iff a value contains no `"$ref"` key in any nested dict. -/
def noRef : JValue → Bool
  | .obj kvs => noRefObj kvs
  | .arr items => noRefArr items
  | _ => true

def noRefObj : List (String × JValue) → Bool
  | [] => true
  | (k, v) :: rest => k ≠ "$ref" && noRef v && noRefObj rest

def noRefArr : List JValue → Bool
  | [] => true
  | v :: rest => noRef v && noRefArr rest

end

lemma lookupA_eq_none_head {α : Type} {k : String} {v : α}
    {rest : List (String × α)} {key : String}
    (h : lookupA key ((k, v) :: rest) = none) :
    k ≠ key ∧ lookupA key rest = none := by
  by_cases hk : k = key
  · simp [lookupA, hk] at h
  · simpa [lookupA, hk] using h

lemma exceptMapPairs_noRef {f : JValue → Except RErr JValue}
    (hrec : ∀ v w, f v = .ok w → noRef w = true) :
    ∀ (kvs l : List (String × JValue)), lookupA "$ref" kvs = none →
      exceptMapPairs f kvs = .ok l → noRefObj l = true := by
  intro kvs
  induction kvs with
  | nil =>
      intro l _ h
      simp only [exceptMapPairs] at h
      cases h
      rfl
  | cons kv rest ih =>
      obtain ⟨k, v⟩ := kv
      intro l hl h
      obtain ⟨hk, hl'⟩ := lookupA_eq_none_head hl
      simp only [exceptMapPairs, bind, Except.bind] at h
      cases hv : f v with
      | error e => rw [hv] at h; cases h
      | ok v' =>
          rw [hv] at h
          cases hr : exceptMapPairs f rest with
          | error e => rw [hr] at h; cases h
          | ok rest' =>
              rw [hr] at h
              simp only [pure, Except.pure, Except.ok.injEq] at h
              subst h
              simp only [noRefObj, Bool.and_eq_true, decide_eq_true_eq]
              exact ⟨⟨hk, hrec v v' hv⟩, ih rest' hl' hr⟩

lemma exceptMapList_noRef {f : JValue → Except RErr JValue}
    (hrec : ∀ v w, f v = .ok w → noRef w = true) :
    ∀ (items l : List JValue),
      exceptMapList f items = .ok l → noRefArr l = true := by
  intro items
  induction items with
  | nil =>
      intro l h
      simp only [exceptMapList] at h
      cases h
      rfl
  | cons v rest ih =>
      intro l h
      simp only [exceptMapList, bind, Except.bind] at h
      cases hv : f v with
      | error e => rw [hv] at h; cases h
      | ok v' =>
          rw [hv] at h
          cases hr : exceptMapList f rest with
          | error e => rw [hr] at h; cases h
          | ok rest' =>
              rw [hr] at h
              simp only [pure, Except.pure, Except.ok.injEq] at h
              subst h
              simp only [noRefArr, Bool.and_eq_true]
              exact ⟨hrec v v' hv, ih rest' hr⟩

lemma resolveRefs_ok_noRef (rm : List (String × JValue)) :
    ∀ (fuel : Nat) (v w : JValue),
      resolveRefs rm fuel v = .ok w → noRef w = true := by
  intro fuel
  induction fuel with
  | zero =>
      intro v w h
      simp only [resolveRefs] at h
      cases h
  | succ n ih =>
      intro v w h
      match v with
      | .null | .bool _ | .int _ | .str _ =>
          simp only [resolveRefs] at h
          cases h
          rfl
      | .arr items =>
          simp only [resolveRefs] at h
          cases hr : exceptMapList (resolveRefs rm n) items with
          | error e => rw [hr] at h; simp [Except.map] at h
          | ok l =>
              rw [hr] at h
              simp only [Except.map, Except.ok.injEq] at h
              subst h
              exact exceptMapList_noRef ih items l hr
      | .obj kvs =>
          simp only [resolveRefs] at h
          split at h
          · split at h
            · exact ih _ w h
            · cases h
          · cases h
          · rename_i heq
            cases hr : exceptMapPairs (resolveRefs rm n) kvs with
            | error e => rw [hr] at h; simp [Except.map] at h
            | ok l =>
                rw [hr] at h
                simp only [Except.map, Except.ok.injEq] at h
                subst h
                exact exceptMapPairs_noRef ih kvs l heq hr

/-- C5: resolution of a directly self-referencing schema/reference-map pair
(a map entry whose `$ref` trailing segment names itself) yields the
circular-reference error at every recursion bound, and resolution is a
total function: on every input it returns either a resolved value or an
error, never diverging. -/
theorem resolve_refs_circular :
    (∀ (refMap : List (String × JValue)) (name r : String)
       (kvs : List (String × JValue)),
       lookupA name refMap = some (.obj kvs) →
       lookupA "$ref" kvs = some (.str r) →
       refTrailing r = name →
       ∀ fuel : Nat, resolveRefs refMap fuel (.obj kvs) = .error .circular) ∧
    (∀ (refMap : List (String × JValue)) (fuel : Nat) (v : JValue),
       (∃ w, resolveRefs refMap fuel v = .ok w) ∨
       (∃ e, resolveRefs refMap fuel v = .error e)) := by
  constructor
  · intro refMap name r kvs hname href htrail fuel
    induction fuel with
    | zero => simp only [resolveRefs]
    | succ n ihn =>
        simp only [resolveRefs, href, htrail, hname]
        exact ihn
  · intro refMap fuel v
    cases h : resolveRefs refMap fuel v with
    | ok w => exact .inl ⟨w, rfl⟩
    | error e => exact .inr ⟨e, rfl⟩

/-- C5 witness: the circularity conjunct applied to the concrete
self-referencing pair `{"A": {"$ref": "#/$defs/A"}}` at recursion bound 5,
and the totality conjunct at a concrete input. -/
theorem resolve_refs_circular_witness :
    resolveRefs [("A", .obj [("$ref", .str "#/$defs/A")])] 5
        (.obj [("$ref", .str "#/$defs/A")]) = .error .circular ∧
      ((∃ w, resolveRefs [] 3 (.int 7) = .ok w) ∨
       (∃ e, resolveRefs [] 3 (.int 7) = .error e)) :=
  ⟨resolve_refs_circular.1 [("A", .obj [("$ref", .str "#/$defs/A")])] "A"
      "#/$defs/A" [("$ref", .str "#/$defs/A")] rfl rfl rfl 5,
   resolve_refs_circular.2 [] 3 (.int 7)⟩

/-- C6: a dict containing a `$ref` whose trailing-path target name is
absent from the reference map resolves to the reference-not-found error
naming that missing reference (at every positive recursion bound), and a
successful resolution leaves no `$ref` token anywhere in the result (the
definition's content is substituted in place). -/
theorem resolve_refs_missing_and_no_ref_left :
    (∀ (refMap kvs : List (String × JValue)) (r : String),
       lookupA "$ref" kvs = some (.str r) →
       lookupA (refTrailing r) refMap = none →
       ∀ fuel : Nat, resolveRefs refMap (fuel + 1) (.obj kvs) =
         .error (.refNotFound (refTrailing r))) ∧
    (∀ (refMap : List (String × JValue)) (fuel : Nat) (v w : JValue),
       resolveRefs refMap fuel v = .ok w → noRef w = true) := by
  constructor
  · intro refMap kvs r href hmiss fuel
    simp only [resolveRefs, href, hmiss]
  · exact fun refMap => resolveRefs_ok_noRef refMap

/-- C6 witness: the missing-reference conjunct at the concrete schema
`{"$ref": "#/$defs/Missing"}` with an empty reference map, and the
no-`$ref`-left conjunct on a successful concrete resolution. -/
theorem resolve_refs_missing_witness :
    resolveRefs [] 4 (.obj [("$ref", .str "#/$defs/Missing")]) =
        .error (.refNotFound "Missing") ∧
      noRef (.obj [("a", .obj [("type", .str "string")])]) = true := by
  constructor
  · exact resolve_refs_missing_and_no_ref_left.1 []
      [("$ref", .str "#/$defs/Missing")] "#/$defs/Missing" rfl rfl 3
  · refine resolve_refs_missing_and_no_ref_left.2
      [("D", .obj [("type", .str "string")])] 5
      (.obj [("a", .obj [("$ref", .str "#/$defs/D")])])
      (.obj [("a", .obj [("type", .str "string")])]) ?_
    simp +decide [resolveRefs, lookupA, refTrailing, pySplit, splitOnChar,
      exceptMapPairs, Except.map, bind, Except.bind, pure, Except.pure]

mutual

/-- Structural equality of JSON values, mirroring Python `==` on parsed
JSON data (used by the discriminated-union branch match
`schema.properties[discriminator].const == value[discriminator]`). -/
def beqJ : JValue → JValue → Bool
  | .null, .null => true
  | .bool a, .bool b => a == b
  | .int a, .int b => a == b
  | .str a, .str b => a == b
  | .arr a, .arr b => beqArrJ a b
  | .obj a, .obj b => beqObjJ a b
  | _, _ => false

def beqArrJ : List JValue → List JValue → Bool
  | [], [] => true
  | x :: xs, y :: ys => beqJ x y && beqArrJ xs ys
  | _, _ => false

def beqObjJ : List (String × JValue) → List (String × JValue) → Bool
  | [], [] => true
  | (k1, v1) :: xs, (k2, v2) :: ys => k1 == k2 && beqJ v1 v2 && beqObjJ xs ys
  | _, _ => false

end

/-- Modelled from the spec's delegated validator: `is_assignable`
(`config_wizard/utils.py` lines 49-64) delegates to the external
`jsonschema.validate` ("Delegated validator (consumed): a schema-instance
validity check used for union-branch disambiguation", spec section 6); here
the `type`-keyword fragment of JSON Schema validation is embedded, which is
the fragment union-branch disambiguation over typed branches exercises
(a value validates against `{type: integer}` iff it is an integer, against
`{type: string}` iff it is a string, and so on; a schema with no declared
type constrains nothing). -/
def is_assignable (value : JValue) (schema : Schema) : Bool :=
  match schema.type with
  | some "string" => match value with | .str _ => true | _ => false
  | some "integer" => match value with | .int _ => true | _ => false
  | some "number" => match value with | .int _ => true | _ => false
  | some "boolean" => match value with | .bool _ => true | _ => false
  | some "array" => match value with | .arr _ => true | _ => false
  | some "object" => match value with | .obj _ => true | _ => false
  | some "null" => match value with | .null => true | _ => false
  | _ => true

/-- Python's `next(i for i, x in enumerate(l) if p(x))`: the index of the
first element satisfying the predicate, `none` when there is none
(where the source's `next` would raise `StopIteration`). -/
def nextIndex {α : Type} (p : α → Bool) : List α → Option Nat
  | [] => none
  | x :: xs => if p x then some 0 else (nextIndex p xs).map (· + 1)

/-- The candidate branch list of `_render_union_input`
(`backends/streamlit.py` line 768): `anyOf or oneOf or []` — Python `or`
takes `anyOf` when non-empty, else `oneOf` (which may itself be empty). -/
def unionBranches (property_schema : Schema) : List Schema :=
  if !property_schema.anyOf.isEmpty then property_schema.anyOf
  else property_schema.oneOf

/-- The discriminated-union branch test of `_render_union_input`
(lines 776-781): the branch's `properties[discriminator].const` equals the
value's discriminator entry (an unset `const` is Python `None`, i.e. JSON
null; a branch lacking the discriminator property would raise in Python
and is treated as a non-match, see the theorem's hypotheses). -/
def discMatches (disc : String) (dv : JValue) (branch : Schema) : Bool :=
  match lookupA disc branch.properties with
  | some ds => beqJ (ds.const.getD .null) dv
  | none => false

/-- The branch pre-selection `selected_index` of `_render_union_input`
(`backends/streamlit.py` lines 770-788), given the property's
stored/default value: for a discriminated union, the first branch whose
discriminator property's `const` equals the value's discriminator entry;
otherwise the first branch the value is assignable to. -/
def selected_union_index (property_schema : Schema) (input_type : InputType)
    (value : JValue) : Option Nat :=
  let union_schemas := unionBranches property_schema
  if input_type = .discriminated_union then
    match property_schema.discriminator with
    | some disc =>
        match value with
        | .obj kvs =>
            match lookupA disc kvs with
            | some dv => nextIndex (discMatches disc dv) union_schemas
            | none => none
        | _ => none
    | none => none
  else
    nextIndex (fun s => is_assignable value s) union_schemas

lemma nextIndex_spec {α : Type} (p : α → Bool) :
    ∀ (l : List α) (i : Nat), nextIndex p l = some i →
      (∃ x, l.get? i = some x ∧ p x = true) ∧
        ∀ j, j < i → ∀ y, l.get? j = some y → p y = false := by
  intro l
  induction l with
  | nil => intro i h; cases h
  | cons x xs ih =>
      intro i h
      by_cases hp : p x = true
      · simp only [nextIndex, hp, if_true] at h
        cases h
        exact ⟨⟨x, rfl, hp⟩, fun j hj => absurd hj (Nat.not_lt_zero j)⟩
      · simp only [nextIndex, hp, if_false] at h
        cases hx : nextIndex p xs with
        | none => rw [hx] at h; cases h
        | some i0 =>
        rw [hx] at h
        simp only [Bool.false_eq_true, if_false, Option.map_some',
          Option.some.injEq] at h
        subst h
        obtain ⟨⟨y, hy, hpy⟩, hlt⟩ := ih i0 hx
        refine ⟨⟨y, by simpa using hy, hpy⟩, ?_⟩
        intro j hj z hz
        match j with
        | 0 =>
            simp only [List.get?_cons_zero, Option.some.injEq] at hz
            subst hz
            simpa using hp
        | j2 + 1 =>
            simp only [List.get?_cons_succ] at hz
            exact hlt j2 (by omega) z hz

/-- A discriminated-union branch whose `kind` property has the given
`const` tag. -/
def discBranch (tag : String) : Schema :=
  .mk none none [] none [] [] [] false
    [("kind", .mk none none [] none [] [] [] false [] none false none none
        [] "" (some (.str tag)) none)]
    none false none none [] "" none none

/-- A discriminated union with discriminator `kind` and branches tagged
`a` and `b`. -/
def discABSchema : Schema :=
  .mk none none [] (some "kind") [discBranch "a", discBranch "b"] [] []
    false [] none false none none [] "" none none

/-- The end-to-end union example schema: `anyOf: [{type: string}, {type:
integer}]`. -/
def unionStrIntSchema : Schema :=
  .mk none none [] none
    [strFormatSchema none,
     .mk (some "integer") none [] none [] [] [] false [] none false none none [] "" none none]
    [] [] false [] none false none none [] "" none none

/-- C7: whenever branch pre-selection returns an index, for a plain union
it is the first branch (in `anyOf`/`oneOf` order) the value is assignable
to (every earlier branch is not assignable), and for a discriminated union
it is the first branch whose discriminator property's `const` literal
equals the value's discriminator entry; in particular for
`anyOf: [{type: string}, {type: integer}]` with stored default value `5`
the integer branch (index 1) is selected. -/
theorem union_branch_preselection :
    (∀ (ps : Schema) (value : JValue) (it : InputType) (i : Nat),
        it ≠ .discriminated_union →
        selected_union_index ps it value = some i →
        (∃ b, (unionBranches ps).get? i = some b ∧ is_assignable value b = true) ∧
          ∀ j, j < i → ∀ b, (unionBranches ps).get? j = some b →
            is_assignable value b = false) ∧
    (∀ (ps : Schema) (disc : String) (kvs : List (String × JValue))
        (dv : JValue) (i : Nat),
        ps.discriminator = some disc →
        lookupA disc kvs = some dv →
        selected_union_index ps .discriminated_union (.obj kvs) = some i →
        (∃ b, (unionBranches ps).get? i = some b ∧ discMatches disc dv b = true) ∧
          ∀ j, j < i → ∀ b, (unionBranches ps).get? j = some b →
            discMatches disc dv b = false) ∧
    selected_union_index unionStrIntSchema .union (.int 5) = some 1 := by
  refine ⟨?_, ?_, by decide⟩
  · intro ps value it i hne hsel
    rw [selected_union_index, if_neg hne] at hsel
    exact nextIndex_spec _ _ i hsel
  · intro ps disc kvs dv i hdisc hdv hsel
    rw [selected_union_index, if_pos rfl] at hsel
    simp only [hdisc, hdv] at hsel
    exact nextIndex_spec _ _ i hsel

/-- C7 witness: the plain-union conjunct applied at the concrete schema
`anyOf: [{type: string}, {type: integer}]` with value `5` and the selected
index `1`, and the discriminated conjunct at a concrete two-branch
discriminated union whose value carries discriminator `"b"`. -/
theorem union_branch_preselection_witness :
    ((∃ b, (unionBranches unionStrIntSchema).get? 1 = some b ∧
        is_assignable (.int 5) b = true) ∧
      ∀ j, j < 1 → ∀ b, (unionBranches unionStrIntSchema).get? j = some b →
        is_assignable (.int 5) b = false) ∧
    ((∃ b, (unionBranches discABSchema).get? 1 = some b ∧
        discMatches "kind" (.str "b") b = true) ∧
      ∀ j, j < 1 → ∀ b, (unionBranches discABSchema).get? j = some b →
        discMatches "kind" (.str "b") b = false) :=
  ⟨union_branch_preselection.1 unionStrIntSchema (.int 5) .union 1
      (by decide) (by decide),
   union_branch_preselection.2.1 discABSchema "kind"
      [("kind", .str "b")] (.str "b") 1 (by decide) (by simp [lookupA]) (by
        simp +decide [selected_union_index, unionBranches, discABSchema,
          discBranch, lookupA, nextIndex, discMatches, Schema.discriminator,
          Schema.anyOf, Schema.oneOf, Schema.properties, Schema.const, beqJ])⟩

/-- A value held in the wizard state: a leaf value or a nested mapping
(Python dict, modelled as an insertion-ordered association list). -/
inductive SVal where
  | prim : JValue → SVal
  | sub : List (String × SVal) → SVal
deriving Repr

/-- The wizard state mapping (`st.session_state[f"{key}-data"]`). -/
abbrev St := List (String × SVal)

/-- Python dict assignment `d[k] = v`: replace the value in place when the
key exists, else append the new entry at the end. -/
def insertA {α : Type} (k : String) (v : α) : List (String × α) → List (String × α)
  | [] => [(k, v)]
  | (k', v') :: rest =>
      if k' = k then (k, v) :: rest else (k', v') :: insertA k v rest

/-- The key separator of `backends/streamlit.py` (line 19). -/
def KEY_SEPARATOR : String := "."

/-- `StreamlitSettingsWizard._get_value` (`backends/streamlit.py` lines
150-164), on an already-split key path: walks the state; a missing
intermediate segment is lazily created as an empty mapping
(`state[part] = {}`) before descending; a missing leaf yields `none`
(Python `None`); an intermediate that is present but holds a leaf value
makes the next `part not in state` membership test raise in Python,
modelled as `.error ()`.  Returns the looked-up value (or `none`) together
with the possibly-extended state. -/
def get_value : St → List String → Except Unit (Option SVal × St)
  | st, [] => .ok (none, st)
  | st, [k] =>
      match lookupA k st with
      | none => .ok (none, st)
      | some v => .ok (some v, st)
  | st, k :: k2 :: ks =>
      match lookupA k st with
      | none => do
          let (r, m) ← get_value [] (k2 :: ks)
          pure (r, insertA k (.sub m) st)
      | some (.sub m) => do
          let (r, m') ← get_value m (k2 :: ks)
          pure (r, insertA k (.sub m') st)
      | some (.prim _) => .error ()

/-- `StreamlitSettingsWizard._store_value` (`backends/streamlit.py` lines
137-148), on an already-split key path: creates missing intermediate
mappings, then assigns the value at the leaf segment; `none` models the
Python crash when an intermediate segment holds a leaf value. -/
def store_value : St → List String → SVal → Option St
  | _, [], _ => none
  | st, [k], v => some (insertA k v st)
  | st, k :: k2 :: ks, v =>
      match lookupA k st with
      | none => (store_value [] (k2 :: ks) v).map (fun m => insertA k (.sub m) st)
      | some (.sub m) =>
          (store_value m (k2 :: ks) v).map (fun m' => insertA k (.sub m') st)
      | some (.prim _) => none

/-- Pure lookup of a dotted path: the stored value when every intermediate
segment is a present mapping and the leaf is present, else `none`. -/
def lookupPath : St → List String → Option SVal
  | _, [] => none
  | st, [k] => lookupA k st
  | st, k :: k2 :: ks =>
      match lookupA k st with
      | some (.sub m) => lookupPath m (k2 :: ks)
      | _ => none

/-- Every intermediate segment of the path that is present in the state
holds a mapping (so the Python walk does not raise). -/
def intermediatesOk : St → List String → Bool
  | _, [] => true
  | _, [_] => true
  | st, k :: k2 :: ks =>
      match lookupA k st with
      | none => true
      | some (.sub m) => intermediatesOk m (k2 :: ks)
      | some (.prim _) => false

/-- The state after lazily creating an empty mapping for every missing
intermediate segment of the path, leaving everything else in place. -/
def mkMissing : St → List String → St
  | st, [] => st
  | st, [_] => st
  | st, k :: k2 :: ks =>
      match lookupA k st with
      | none => insertA k (.sub (mkMissing [] (k2 :: ks))) st
      | some (.sub m) => insertA k (.sub (mkMissing m (k2 :: ks))) st
      | some (.prim _) => st

lemma lookupPath_nil_st (ks : List String) : lookupPath [] ks = none := by
  match ks with
  | [] => rfl
  | [k] => rfl
  | k :: k2 :: ks => rfl

lemma intermediatesOk_nil_st (ks : List String) :
    intermediatesOk [] ks = true := by
  match ks with
  | [] => rfl
  | [k] => rfl
  | k :: k2 :: ks => rfl

lemma lookupA_insertA_self {α : Type} (k : String) (v : α) :
    ∀ l : List (String × α), lookupA k (insertA k v l) = some v := by
  intro l
  induction l with
  | nil => simp [insertA, lookupA]
  | cons kv rest ih =>
      obtain ⟨k', v'⟩ := kv
      by_cases hk : k' = k
      · simp [insertA, lookupA, hk]
      · simp [insertA, lookupA, hk, ih]

lemma lookupA_insertA_other {α : Type} {k q : String} (hne : q ≠ k) (v : α) :
    ∀ l : List (String × α), lookupA q (insertA k v l) = lookupA q l := by
  have hkq : k ≠ q := Ne.symm hne
  intro l
  induction l with
  | nil => simp [insertA, lookupA, hkq]
  | cons kv rest ih =>
      obtain ⟨k', v'⟩ := kv
      by_cases hk : k' = k
      · subst hk
        simp [insertA, lookupA, hkq]
      · simp only [insertA, if_neg hk, lookupA]
        by_cases hq : k' = q
        · simp [hq]
        · simp [hq, ih]

lemma get_value_eq (ks : List String) :
    ∀ st : St, ks ≠ [] → intermediatesOk st ks = true →
      get_value st ks = .ok (lookupPath st ks, mkMissing st ks) := by
  induction ks with
  | nil => intro st h; exact absurd rfl h
  | cons k ks ih =>
      intro st _ hok
      cases ks with
      | nil =>
          cases h : lookupA k st <;>
            simp [get_value, lookupPath, mkMissing, h]
      | cons k2 ks2 =>
          have hne : (k2 :: ks2) ≠ [] := by simp
          cases h : lookupA k st with
          | none =>
              have h1 := ih [] hne (intermediatesOk_nil_st _)
              simp [get_value, h, h1, lookupPath, mkMissing,
                lookupPath_nil_st, bind, Except.bind, pure, Except.pure]
          | some sv =>
              match sv with
              | .prim p =>
                  rw [intermediatesOk, h] at hok
                  cases hok
              | .sub m =>
                  have hokm : intermediatesOk m (k2 :: ks2) = true := by
                    rw [intermediatesOk, h] at hok
                    exact hok
                  have h1 := ih m hne hokm
                  simp [get_value, h, h1, lookupPath, mkMissing,
                    bind, Except.bind, pure, Except.pure]

lemma mkMissing_preserves (ks : List String) :
    ∀ (st : St) (p : List String) (x : JValue),
      lookupPath st p = some (.prim x) →
      lookupPath (mkMissing st ks) p = some (.prim x) := by
  induction ks with
  | nil => intro st p x hp; exact hp
  | cons k ks ih =>
      intro st p x hp
      cases ks with
      | nil => exact hp
      | cons k2 ks2 =>
          cases h : lookupA k st with
          | none =>
              rw [mkMissing, h]
              match p with
              | [] => cases hp
              | [q] =>
                  rw [lookupPath] at hp ⊢
                  by_cases hq : q = k
                  · subst hq; rw [h] at hp; cases hp
                  · rw [lookupA_insertA_other hq]
                    exact hp
              | q :: q2 :: p3 =>
                  rw [lookupPath] at hp ⊢
                  by_cases hq : q = k
                  · subst hq; rw [h] at hp; cases hp
                  · rw [lookupA_insertA_other hq]
                    exact hp
          | some sv =>
              match sv with
              | .prim y => rw [mkMissing, h]; exact hp
              | .sub m =>
                  rw [mkMissing, h]
                  match p with
                  | [] => cases hp
                  | [q] =>
                      rw [lookupPath] at hp ⊢
                      by_cases hq : q = k
                      · subst hq; rw [h] at hp; cases hp
                      · rw [lookupA_insertA_other hq]
                        exact hp
                  | q :: q2 :: p3 =>
                      rw [lookupPath] at hp ⊢
                      by_cases hq : q = k
                      · subst hq
                        rw [h] at hp
                        rw [lookupA_insertA_self]
                        exact ih m (q2 :: p3) x hp
                      · rw [lookupA_insertA_other hq]
                        exact hp

/-- C8: for every non-empty dotted key path whose present intermediate
segments all hold mappings, the state-store `get` returns the stored value
when every segment is present and `none` (not an error) when any
intermediate or leaf segment is missing — the returned lookup result is
exactly the pure `lookupPath` — and as a side effect the returned state is
the input state with an empty mapping created for every missing
intermediate segment (`mkMissing`); every leaf value stored anywhere in
the state before the read is still reachable at its path afterwards. -/
theorem get_value_path_spec :
    (∀ (st : St) (ks : List String), ks ≠ [] → intermediatesOk st ks = true →
        get_value st ks = .ok (lookupPath st ks, mkMissing st ks)) ∧
    (∀ (st : St) (ks p : List String) (x : JValue),
        lookupPath st p = some (.prim x) →
        lookupPath (mkMissing st ks) p = some (.prim x)) :=
  ⟨fun st ks => get_value_eq ks st, fun st ks => mkMissing_preserves ks st⟩

/-- C8 witness: reading the missing path `"b.c"` against the concrete
state `{"a": 1}` returns the absent marker and creates `{"b": {}}`; the
leaf `"a"` is untouched; reading the present path `"a"` returns the
stored value and leaves the state unchanged. -/
theorem get_value_path_spec_witness :
    get_value [("a", .prim (.int 1))] ["b", "c"] =
        .ok (none, [("a", .prim (.int 1)), ("b", .sub [])]) ∧
      lookupPath (mkMissing [("a", .prim (.int 1))] ["b", "c"]) ["a"] =
        some (.prim (.int 1)) ∧
      get_value [("a", .prim (.int 1))] ["a"] =
        .ok (some (.prim (.int 1)), [("a", .prim (.int 1))]) := by
  refine ⟨?_, ?_, ?_⟩
  · have h := get_value_path_spec.1 [("a", .prim (.int 1))] ["b", "c"]
      (by simp) (by decide)
    rw [h]
    simp [lookupPath, lookupA, mkMissing, insertA]
  · exact get_value_path_spec.2 [("a", .prim (.int 1))] ["b", "c"] ["a"]
      (.int 1) (by simp [lookupPath, lookupA])
  · have h := get_value_path_spec.1 [("a", .prim (.int 1))] ["a"]
      (by simp) (by decide)
    rw [h]
    simp [lookupPath, lookupA, mkMissing]

/-- ASCII uppercase letter (the regex class `[A-Z]` of
`re.sub(r"(?<!^)(?=[A-Z])", "_", s)`). -/
def isUpperA (c : Char) : Bool := 'A' ≤ c && c ≤ 'Z'

/-- ASCII lowercase letter. -/
def isLowerA (c : Char) : Bool := 'a' ≤ c && c ≤ 'z'

/-- ASCII letter (a "cased" character for Python `str.title`, restricted
to the ASCII inputs the code manipulates). -/
def isAlphaA (c : Char) : Bool := isUpperA c || isLowerA c

/-- Python `str.lower` on one character (ASCII range). -/
def lowerC (c : Char) : Char :=
  if isUpperA c then Char.ofNat (c.toNat + 32) else c

/-- Python `str.upper` on one character (ASCII range). -/
def upperC (c : Char) : Char :=
  if isLowerA c then Char.ofNat (c.toNat - 32) else c

/-- Python `str.strip()` whitespace (ASCII range). -/
def isWsA (c : Char) : Bool :=
  c = ' ' || c = '\t' || c = '\n' || c = '\r' ||
  c = Char.ofNat 11 || c = Char.ofNat 12

/-- A character of the regex class `[-_]` of `re.sub(r"[-_]+", "_", s)`. -/
def isDashU (c : Char) : Bool := c = '-' || c = '_'

/-- One character of `s.replace(" ", "_")`. -/
def spaceToUnd (c : Char) : Char := if c = ' ' then '_' else c

/-- One character of `s.replace("_", "-")`. -/
def toDash (c : Char) : Char := if c = '_' then '-' else c

/-- One character of `s.replace("_", " ")`. -/
def undToSpace (c : Char) : Char := if c = '_' then ' ' else c

/-- One character of the hyphen-to-underscore direction (the effect of
`re.sub(r"[-_]+", "_", s)` on an isolated hyphen or other character). -/
def toUnd (c : Char) : Char := if c = '-' then '_' else c

/-- Tail of `re.sub(r"(?<!^)(?=[A-Z])", "_", s)`: an underscore is
inserted before every uppercase letter. -/
def insRest : List Char → List Char
  | [] => []
  | c :: rest => (if isUpperA c then ['_', c] else [c]) ++ insRest rest

/-- `re.sub(r"(?<!^)(?=[A-Z])", "_", s)`: an underscore before every
uppercase letter other than at the start of the string. -/
def insUnderscores : List Char → List Char
  | [] => []
  | c :: rest => c :: insRest rest

/-- `re.sub(r"[-_]+", "_", s)`: every maximal run of hyphens and
underscores becomes a single underscore (the flag records being inside a
run). -/
def collapseAux : Bool → List Char → List Char
  | _, [] => []
  | inRun, c :: cs =>
      if isDashU c then
        if inRun then collapseAux true cs else '_' :: collapseAux true cs
      else c :: collapseAux false cs

/-- The shared first three steps of `to_title_case` and `to_kebab_case`
(`config_wizard/utils.py` lines 21-23 and 41-43): insert underscores
before inner uppercase letters and lowercase
(`re.sub(r"(?<!^)(?=[A-Z])", "_", s).lower()`), replace spaces by
underscores, collapse `[-_]+` runs to a single underscore. -/
def snakeify (l : List Char) : List Char :=
  collapseAux false (((insUnderscores l).map lowerC).map spaceToUnd)

/-- Python `s.strip(chars)`: drop the characters satisfying `p` from both
ends. -/
def stripWith (p : Char → Bool) (l : List Char) : List Char :=
  ((l.dropWhile p).reverse.dropWhile p).reverse

/-- Python `str.title` (ASCII range): a cased character following a
non-cased character (or the start) is uppercased, other cased characters
are lowercased. -/
def titleAux : Bool → List Char → List Char
  | _, [] => []
  | prev, c :: cs =>
      if isAlphaA c then
        (if prev then lowerC c else upperC c) :: titleAux true cs
      else c :: titleAux false cs

/-- `to_kebab_case` on character lists: snakeify, replace underscores by
hyphens, strip hyphens from both ends, lowercase
(`config_wizard/utils.py` lines 45-46). -/
def kebabL (l : List Char) : List Char :=
  (stripWith (fun c => c = '-') ((snakeify l).map toDash)).map lowerC

/-- `to_title_case` on character lists: snakeify, replace underscores by
spaces, strip whitespace from both ends, title-case
(`config_wizard/utils.py` line 26). -/
def titleL (l : List Char) : List Char :=
  titleAux false (stripWith isWsA ((snakeify l).map undToSpace))

/-- `to_title_case` from `config_wizard/utils.py` (lines 9-26). -/
def to_title_case (s : String) : String := ⟨titleL s.data⟩

/-- `to_kebab_case` from `config_wizard/utils.py` (lines 29-46). -/
def to_kebab_case (s : String) : String := ⟨kebabL s.data⟩

example : to_title_case "simple_test" = "Simple Test" := by decide
example : to_title_case "camelCaseTest" = "Camel Case Test" := by decide
example : to_title_case "already title" = "Already Title" := by decide
example : to_title_case "with_multiple_words" = "With Multiple Words" := by decide
example : to_title_case "Already Title Capitalized" = "Already Title Capitalized" := by decide
example : to_title_case "     leadingAndTrailingSpaces     " = "Leading And Trailing Spaces" := by decide
example : to_title_case "with_numbers_123" = "With Numbers 123" := by decide
example : to_title_case "with___multiple___underscores" = "With Multiple Underscores" := by decide
example : to_title_case "with-Mixed-Case" = "With Mixed Case" := by decide
example : to_kebab_case "simpleTest" = "simple-test" := by decide
example : to_kebab_case "camelCaseTest" = "camel-case-test" := by decide
example : to_kebab_case "already-kebab" = "already-kebab" := by decide
example : to_kebab_case "with_multiple_words" = "with-multiple-words" := by decide
example : to_kebab_case "Already-Kebab-Cased" = "already-kebab-cased" := by decide
example : to_kebab_case "     leadingAndTrailingSpaces     " = "leading-and-trailing-spaces" := by decide
example : to_kebab_case "with_numbers_123" = "with-numbers-123" := by decide
example : to_kebab_case "with___multiple___underscores" = "with-multiple-underscores" := by decide
example : to_kebab_case "with-Mixed-Case" = "with-mixed-case" := by decide
example : to_title_case "" = "" := by decide
example : to_kebab_case "" = "" := by decide

/-- C9 counterexample: `to_title_case` is not idempotent — on input
`"a1b"` it yields `"A1B"` (Python `str.title` capitalizes a letter after a
digit), and applying it again yields `"A1 B"`, because the second pass
inserts an underscore before the now-uppercase `B`. -/
theorem to_title_case_not_idempotent :
    to_title_case "a1b" = "A1B" ∧ to_title_case (to_title_case "a1b") = "A1 B" ∧
      to_title_case (to_title_case "a1b") ≠ to_title_case "a1b" := by
  refine ⟨by decide, by decide, by decide⟩

section KebabIdempotent

lemma lowerC_eq_self {c : Char} (h : isUpperA c = false) : lowerC c = c := by
  unfold lowerC
  rw [if_neg (by simp [h])]

lemma isUpperA_lowerC (c : Char) : isUpperA (lowerC c) = false := by
  unfold lowerC
  by_cases h : isUpperA c = true
  · rw [if_pos h]
    simp only [isUpperA, Bool.and_eq_true, decide_eq_true_eq] at h
    obtain ⟨h1, h2⟩ := h
    have hn1 : 65 ≤ c.toNat := h1
    have hn2 : c.toNat ≤ 90 := h2
    interval_cases h : c.toNat <;> decide
  · simp only [Bool.not_eq_true] at h
    rw [if_neg (by simp [h])]
    exact h

/-- No two adjacent characters of the list are both in the `[-_]` class. -/
def NoAdj (l : List Char) : Prop :=
  List.Chain' (fun a b => isDashU a = false ∨ isDashU b = false) l

lemma noAdj_reverse {l : List Char} (h : NoAdj l) : NoAdj l.reverse := by
  rw [NoAdj, List.chain'_reverse]
  exact h.imp (fun a b hab => hab.elim Or.inr Or.inl)

lemma noAdj_tail_suffix {l m : List Char} (h : NoAdj l) (hs : m <:+ l) :
    NoAdj m :=
  List.Chain'.suffix h hs

lemma collapseAux_true_of_headNot {l : List Char}
    (h : ∀ c ∈ l.head?, isDashU c = false) :
    collapseAux true l = collapseAux false l := by
  match l with
  | [] => rfl
  | c :: cs =>
      have hc : isDashU c = false := h c rfl
      simp [collapseAux, hc]

lemma collapseAux_noAdj :
    ∀ l : List Char, NoAdj (collapseAux false l) ∧
      (∀ c ∈ (collapseAux true l).head?, isDashU c = false) ∧
      NoAdj (collapseAux true l) := by
  intro l
  induction l with
  | nil => exact ⟨List.chain'_nil, by simp [collapseAux], List.chain'_nil⟩
  | cons c cs ih =>
      obtain ⟨ih1, ih2, ih3⟩ := ih
      by_cases hc : isDashU c = true
      · refine ⟨?_, ?_, ?_⟩
        · simp only [collapseAux, hc, if_true, if_false]
          exact List.chain'_cons'.mpr ⟨fun y hy => Or.inr (ih2 y hy), ih3⟩
        · simp only [collapseAux, hc, if_true]
          exact ih2
        · simp only [collapseAux, hc, if_true]
          exact ih3
      · simp only [Bool.not_eq_true] at hc
        refine ⟨?_, ?_, ?_⟩
        · simp only [collapseAux, hc, Bool.false_eq_true, if_false]
          exact List.chain'_cons'.mpr ⟨fun y hy => Or.inl hc, ih1⟩
        · simp only [collapseAux, hc, Bool.false_eq_true, if_false,
            List.head?_cons, Option.mem_def, Option.some.injEq]
          rintro x rfl
          exact hc
        · simp only [collapseAux, hc, Bool.false_eq_true, if_false]
          exact List.chain'_cons'.mpr ⟨fun y hy => Or.inl hc, ih1⟩

lemma mem_collapseAux {c : Char} :
    ∀ (b : Bool) (l : List Char), c ∈ collapseAux b l →
      c = '_' ∨ (c ∈ l ∧ isDashU c = false) := by
  intro b l
  induction l generalizing b with
  | nil => intro h; cases h
  | cons d ds ih =>
      intro h
      by_cases hd : isDashU d = true
      · cases b with
        | true =>
            simp only [collapseAux, hd, if_true] at h
            rcases ih true h with h' | ⟨hm, hfd⟩
            · exact Or.inl h'
            · exact Or.inr ⟨List.mem_cons_of_mem d hm, hfd⟩
        | false =>
            simp only [collapseAux, hd, if_true, Bool.false_eq_true,
              if_false] at h
            rcases List.mem_cons.mp h with rfl | h'
            · exact Or.inl rfl
            · rcases ih true h' with h'' | ⟨hm, hfd⟩
              · exact Or.inl h''
              · exact Or.inr ⟨List.mem_cons_of_mem d hm, hfd⟩
      · simp only [Bool.not_eq_true] at hd
        simp only [collapseAux, hd, Bool.false_eq_true, if_false] at h
        rcases List.mem_cons.mp h with rfl | h'
        · exact Or.inr ⟨List.mem_cons_self c ds, hd⟩
        · rcases ih false h' with h'' | ⟨hm, hfd⟩
          · exact Or.inl h''
          · exact Or.inr ⟨List.mem_cons_of_mem d hm, hfd⟩

lemma collapseAux_eq_map_toUnd :
    ∀ l : List Char, (∀ c ∈ l, c ≠ '_') → NoAdj l →
      collapseAux false l = l.map toUnd := by
  intro l
  induction l with
  | nil => intro _ _; rfl
  | cons c cs ih =>
      intro hu hadj
      obtain ⟨hhead, htail⟩ := List.chain'_cons'.mp hadj
      by_cases hc : isDashU c = true
      · have hc' : c = '-' := by
          rcases Bool.or_eq_true_iff.mp hc with h | h
          · exact of_decide_eq_true h
          · exact absurd (of_decide_eq_true h) (hu c (List.mem_cons_self c cs))
        have hcs : ∀ x ∈ cs.head?, isDashU x = false := by
          intro x hx
          rcases hhead x hx with h | h
          · rw [hc] at h; cases h
          · exact h
        simp only [collapseAux, hc, if_true, if_false, List.map_cons]
        rw [collapseAux_true_of_headNot hcs,
          ih (fun x hx => hu x (List.mem_cons_of_mem c hx)) htail]
        subst hc'
        rfl
      · simp only [Bool.not_eq_true] at hc
        have hcnd : c ≠ '-' := by
          intro hcc
          subst hcc
          simp [isDashU] at hc
        simp only [collapseAux, hc, Bool.false_eq_true, if_false,
          List.map_cons]
        rw [ih (fun x hx => hu x (List.mem_cons_of_mem c hx)) htail]
        have : toUnd c = c := by simp [toUnd, hcnd]
        rw [this]

end KebabIdempotent

section KebabIdempotent2

lemma insRest_eq_self :
    ∀ l : List Char, (∀ c ∈ l, isUpperA c = false) → insRest l = l := by
  intro l
  induction l with
  | nil => intro _; rfl
  | cons c cs ih =>
      intro h
      have hc : isUpperA c = false := h c (List.mem_cons_self c cs)
      simp only [insRest, hc, Bool.false_eq_true, if_false,
        List.singleton_append, List.cons.injEq, true_and]
      exact ih (fun x hx => h x (List.mem_cons_of_mem c hx))

lemma insUnderscores_eq_self {l : List Char}
    (h : ∀ c ∈ l, isUpperA c = false) : insUnderscores l = l := by
  match l with
  | [] => rfl
  | c :: cs =>
      simp only [insUnderscores, List.cons.injEq, true_and]
      exact insRest_eq_self cs (fun x hx => h x (List.mem_cons_of_mem c hx))

lemma map_eq_self_of_fixed {f : Char → Char} :
    ∀ l : List Char, (∀ c ∈ l, f c = c) → l.map f = l := by
  intro l
  induction l with
  | nil => intro _; rfl
  | cons c cs ih =>
      intro h
      simp only [List.map_cons, h c (List.mem_cons_self c cs),
        List.cons.injEq, true_and]
      exact ih (fun x hx => h x (List.mem_cons_of_mem c hx))

lemma map_toUnd_toDash :
    ∀ l : List Char, (∀ c ∈ l, c ≠ '_') → (l.map toUnd).map toDash = l := by
  intro l
  induction l with
  | nil => intro _; rfl
  | cons c cs ih =>
      intro h
      have hc : c ≠ '_' := h c (List.mem_cons_self c cs)
      simp only [List.map_cons, List.cons.injEq]
      constructor
      · by_cases hcd : c = '-'
        · subst hcd; rfl
        · simp [toUnd, toDash, hcd, hc]
      · exact ih (fun x hx => h x (List.mem_cons_of_mem c hx))

lemma isDashU_toDash (c : Char) : isDashU (toDash c) = isDashU c := by
  by_cases h : c = '_'
  · subst h; rfl
  · simp [toDash, h]

lemma noAdj_map_toDash {l : List Char} (h : NoAdj l) : NoAdj (l.map toDash) := by
  rw [NoAdj, List.chain'_map]
  exact h.imp (fun a b hab => by
    rw [isDashU_toDash, isDashU_toDash]
    exact hab)

lemma head?_dropWhile_false {p : Char → Bool} :
    ∀ l : List Char, ∀ c ∈ (l.dropWhile p).head?, p c = false := by
  intro l
  induction l with
  | nil => intro c hc; cases hc
  | cons d ds ih =>
      intro c hc
      by_cases hd : p d = true
      · rw [List.dropWhile_cons, if_pos hd] at hc
        exact ih c hc
      · simp only [Bool.not_eq_true] at hd
        rw [List.dropWhile_cons, if_neg (by simp [hd])] at hc
        simp only [List.head?_cons, Option.mem_def, Option.some.injEq] at hc
        subst hc
        exact hd

lemma dropWhile_eq_self_of_head {p : Char → Bool} {l : List Char}
    (h : ∀ c ∈ l.head?, p c = false) : l.dropWhile p = l := by
  match l with
  | [] => rfl
  | c :: cs =>
      rw [List.dropWhile_cons, if_neg (by simp [h c rfl])]

lemma getLast?_of_suffix {l m : List Char} (hs : m <:+ l) (hne : m ≠ []) :
    m.getLast? = l.getLast? := by
  obtain ⟨pre, rfl⟩ := hs
  exact (List.getLast?_append_of_ne_nil pre hne).symm

lemma stripWith_eq_self {p : Char → Bool} {l : List Char}
    (h1 : ∀ c ∈ l.head?, p c = false) (h2 : ∀ c ∈ l.getLast?, p c = false) :
    stripWith p l = l := by
  unfold stripWith
  rw [dropWhile_eq_self_of_head h1]
  rw [dropWhile_eq_self_of_head (by rw [List.head?_reverse]; exact h2)]
  exact List.reverse_reverse l

lemma stripWith_head? {p : Char → Bool} (l : List Char) :
    ∀ c ∈ (stripWith p l).head?, p c = false := by
  intro c hc
  unfold stripWith at hc
  rw [List.head?_reverse] at hc
  cases hd : ((l.dropWhile p).reverse.dropWhile p) with
  | nil => rw [hd] at hc; cases hc
  | cons x xs =>
      rw [hd] at hc
      have hsuffix : (x :: xs) <:+ (l.dropWhile p).reverse := by
        rw [← hd]; exact List.dropWhile_suffix p
      rw [getLast?_of_suffix hsuffix (by simp)] at hc
      rw [List.getLast?_reverse] at hc
      exact head?_dropWhile_false l c hc

lemma stripWith_getLast? {p : Char → Bool} (l : List Char) :
    ∀ c ∈ (stripWith p l).getLast?, p c = false := by
  intro c hc
  unfold stripWith at hc
  rw [List.getLast?_reverse] at hc
  exact head?_dropWhile_false (l.dropWhile p).reverse c hc

lemma noAdj_stripWith {p : Char → Bool} {l : List Char} (h : NoAdj l) :
    NoAdj (stripWith p l) := by
  unfold stripWith
  exact noAdj_reverse (noAdj_tail_suffix
    (noAdj_reverse (noAdj_tail_suffix h (List.dropWhile_suffix p)))
    (List.dropWhile_suffix p))

lemma mem_stripWith {p : Char → Bool} {l : List Char} {c : Char}
    (h : c ∈ stripWith p l) : c ∈ l := by
  unfold stripWith at h
  rw [List.mem_reverse] at h
  have h2 := (List.dropWhile_suffix p).mem h
  rw [List.mem_reverse] at h2
  exact (List.dropWhile_suffix p).mem h2

end KebabIdempotent2

section KebabIdempotent3

lemma snakeify_chars (l : List Char) :
    ∀ c ∈ snakeify l, isUpperA c = false ∧ c ≠ ' ' := by
  intro c hc
  rcases mem_collapseAux false _ hc with rfl | ⟨hm, _⟩
  · exact ⟨by decide, by decide⟩
  · rw [List.mem_map] at hm
    obtain ⟨x, hx, rfl⟩ := hm
    rw [List.mem_map] at hx
    obtain ⟨y, _, rfl⟩ := hx
    by_cases hs : lowerC y = ' '
    · simp only [spaceToUnd, hs, if_true]
      exact ⟨by decide, by decide⟩
    · simp only [spaceToUnd, hs, if_neg hs]
      exact ⟨isUpperA_lowerC y, hs⟩

lemma snakeify_noAdj (l : List Char) : NoAdj (snakeify l) :=
  (collapseAux_noAdj _).1

lemma kebab_fixpoint {m : List Char}
    (hchars : ∀ c ∈ m, isUpperA c = false ∧ c ≠ ' ' ∧ c ≠ '_')
    (hadj : NoAdj m)
    (hh : ∀ c ∈ m.head?, c ≠ '-')
    (hl : ∀ c ∈ m.getLast?, c ≠ '-') :
    kebabL m = m := by
  have hnu : ∀ c ∈ m, isUpperA c = false := fun c hc => (hchars c hc).1
  have hns : ∀ c ∈ m, c ≠ ' ' := fun c hc => (hchars c hc).2.1
  have hnd : ∀ c ∈ m, c ≠ '_' := fun c hc => (hchars c hc).2.2
  have h1 : insUnderscores m = m := insUnderscores_eq_self hnu
  have h2 : m.map lowerC = m :=
    map_eq_self_of_fixed m (fun c hc => lowerC_eq_self (hnu c hc))
  have h3 : m.map spaceToUnd = m :=
    map_eq_self_of_fixed m (fun c hc => by simp [spaceToUnd, hns c hc])
  have h4 : collapseAux false m = m.map toUnd :=
    collapseAux_eq_map_toUnd m hnd hadj
  have h5 : (m.map toUnd).map toDash = m := map_toUnd_toDash m hnd
  have h6 : stripWith (fun c => c = '-') m = m :=
    stripWith_eq_self (fun c hc => by simp [hh c hc])
      (fun c hc => by simp [hl c hc])
  unfold kebabL snakeify
  rw [h1, h2, h3, h4, h5, h6, h2]

lemma kebabL_idem (l : List Char) : kebabL (kebabL l) = kebabL l := by
  have hcore : ∀ c ∈ stripWith (fun c => c = '-') ((snakeify l).map toDash),
      isUpperA c = false ∧ c ≠ ' ' ∧ c ≠ '_' := by
    intro c hc
    have hc' := mem_stripWith hc
    rw [List.mem_map] at hc'
    obtain ⟨x, hx, rfl⟩ := hc'
    obtain ⟨hxu, hxs⟩ := snakeify_chars l x hx
    by_cases hxd : x = '_'
    · simp only [toDash, hxd, if_true]
      exact ⟨by decide, by decide, by decide⟩
    · simp only [toDash, hxd, if_neg hxd]
      exact ⟨hxu, hxs, hxd⟩
  have hmap : (stripWith (fun c => c = '-') ((snakeify l).map toDash)).map
      lowerC = stripWith (fun c => c = '-') ((snakeify l).map toDash) :=
    map_eq_self_of_fixed _ (fun c hc => lowerC_eq_self (hcore c hc).1)
  have hkeb : kebabL l = stripWith (fun c => c = '-') ((snakeify l).map toDash) := by
    rw [kebabL, hmap]
  rw [hkeb]
  refine kebab_fixpoint hcore ?_ ?_ ?_
  · exact noAdj_stripWith (noAdj_map_toDash (snakeify_noAdj l))
  · intro c hc
    have := stripWith_head? ((snakeify l).map toDash) c hc
    simpa using this
  · intro c hc
    have := stripWith_getLast? ((snakeify l).map toDash) c hc
    simpa using this

end KebabIdempotent3

/-- C9 (amended): `to_title_case("camelCaseTest") = "Camel Case Test"` and
`to_kebab_case("with_multiple_words") = "with-multiple-words"`; both map
the empty string to itself; `to_kebab_case` is idempotent on every string;
`to_title_case` is idempotent on the already-converted example (it maps
`"Camel Case Test"` to itself) but not on every string (see the
counterexample `"a1b"`). -/
theorem case_conversion_spec :
    to_title_case "camelCaseTest" = "Camel Case Test" ∧
    to_kebab_case "with_multiple_words" = "with-multiple-words" ∧
    to_title_case "" = "" ∧
    to_kebab_case "" = "" ∧
    (∀ s : String, to_kebab_case (to_kebab_case s) = to_kebab_case s) ∧
    to_title_case (to_title_case "camelCaseTest") =
      to_title_case "camelCaseTest" := by
  refine ⟨by decide, by decide, by decide, by decide, ?_, by decide⟩
  intro s
  show (⟨kebabL (kebabL s.data)⟩ : String) = ⟨kebabL s.data⟩
  rw [kebabL_idem]

/-- The reserved sentinel key of `backends/base.py` (line 12). -/
def ADDITIONAL_PROPERTIES_KEY : String := "__additional_properties__"

mutual

/-- The loop of `unpack_additional_properties`
(`config_wizard/utils.py` lines 78-90), building the Python `result` dict
as an accumulator: an entry under the reserved key whose value is a
mapping has its members merged into the accumulator (mapping members
recursively unpacked); any other mapping value is recursively unpacked in
place; leaves are copied. -/
def unpackEntries (apKey : String) : List (String × SVal) → St → St
  | [], acc => acc
  | (k, v) :: rest, acc =>
      if k = apKey then
        match v with
        | .sub m => unpackEntries apKey rest (mergeEntries apKey m acc)
        | .prim p => unpackEntries apKey rest (insertA k (.prim p) acc)
      else
        match v with
        | .sub m =>
            unpackEntries apKey rest
              (insertA k (.sub (unpackEntries apKey m [])) acc)
        | .prim p => unpackEntries apKey rest (insertA k (.prim p) acc)

/-- The inner `for add_k, add_v in v.items()` loop of
`unpack_additional_properties` (lines 81-85). -/
def mergeEntries (apKey : String) : List (String × SVal) → St → St
  | [], acc => acc
  | (ak, av) :: rest, acc =>
      match av with
      | .sub mm =>
          mergeEntries apKey rest
            (insertA ak (.sub (unpackEntries apKey mm [])) acc)
      | .prim p => mergeEntries apKey rest (insertA ak (.prim p) acc)

end

/-- `unpack_additional_properties` from `config_wizard/utils.py`
(lines 67-90). -/
def unpack_additional_properties (data : St) (additional_properties_key : String) : St :=
  unpackEntries additional_properties_key data []

/-- The unpacking of one dictionary value (`unpack_additional_properties`
applied to mapping values, leaves copied). -/
def unpackVal (apKey : String) : SVal → SVal
  | .prim p => .prim p
  | .sub m => .sub (unpackEntries apKey m [])

/-- The title normalization of `render_schema` (`backends/base.py` lines
135-136): `if not prop.title: prop.title = to_title_case(prop_key)`. -/
def normTitle (k : String) (s : Schema) : Schema :=
  if s.title = "" then s.withTitle (to_title_case k) else s

/-- `_store_value` on a dotted key: split on the key separator, then walk
(`backends/streamlit.py` lines 137-148). -/
def store_value_key (st : St) (key : String) (v : SVal) : Option St :=
  store_value st (pySplit '.' key) v

/-- The property loop of `render_schema` (`backends/base.py` lines
133-146): for each declared property in order, synthesize a title when
absent, render the property via the delegated renderer `rp` (a fixed
function of key, schema, required flag and is-item flag), and store the
returned value under the property key.  Returns the mutated property list
and the updated state (`none` models the store crashing on a
leaf-valued intermediate segment). -/
def renderProps (rp : String → Schema → Bool → Bool → SVal)
    (req : List String) :
    List (String × Schema) → St → Option (List (String × Schema) × St)
  | [], st => some ([], st)
  | (k, p) :: rest, st => do
      let p' := normTitle k p
      let v := rp k p' (decide (k ∈ req)) false
      let st' ← store_value_key st k v
      let (ps', st'') ← renderProps rp req rest st'
      pure ((k, p') :: ps', st'')

/-- `render_schema` from `backends/base.py` (lines 117-158): returns `{}`
immediately when the schema declares no properties (regardless of
`additionalProperties`); otherwise renders every declared property storing
each value, then, if `additionalProperties` is truthy, renders the
additional-properties region via the delegated renderer `ra` and stores
its result under the reserved sentinel key; finally returns
`unpack_additional_properties(dict(state), sentinel)` alongside the final
state and the (title-mutated) schema. -/
def render_schema (sc : Schema) (rp : String → Schema → Bool → Bool → SVal)
    (ra : String → Schema → Bool → St) (st : St) : Option (St × St × Schema) :=
  if sc.properties.isEmpty then some ([], st, sc)
  else do
    let (props', st1) ← renderProps rp sc.required sc.properties st
    let sc' := sc.withProperties props'
    let st2 ←
      if Schema.apTruthy sc.additionalProperties then
        store_value_key st1 ADDITIONAL_PROPERTIES_KEY
          (.sub (ra ADDITIONAL_PROPERTIES_KEY sc' false))
      else pure st1
    pure (unpack_additional_properties st2 ADDITIONAL_PROPERTIES_KEY, st2, sc')

mutual

/-- `true` iff no key of the nested mapping equals the given key. -/
def noKeyV (key : String) : SVal → Bool
  | .prim _ => true
  | .sub m => noKeySt key m

def noKeySt (key : String) : St → Bool
  | [] => true
  | (k, v) :: rest => k ≠ key && noKeyV key v && noKeySt key rest

end

/-- A schema declaring no properties but declaring
`additionalProperties: true`. -/
def apOnlySchema : Schema :=
  .mk none none [] none [] [] [] false [] (some (.bool true)) false none
    none [] "" none none

/-- C2 counterexample: on a schema with no declared properties but with
`additionalProperties` declared, `render_schema` returns `{}` immediately
— the additional-properties region is never rendered or stored, and its
entries (here `{"x": 1}`) do not appear in the returned tree, contradicting
the claim's "including one with no declared properties". -/
theorem render_schema_no_props_returns_empty :
    render_schema apOnlySchema (fun _ _ _ _ => .prim .null)
        (fun _ _ _ => [("x", .prim (.int 1))]) [] =
      some ([], [], apOnlySchema) ∧
    Schema.apTruthy apOnlySchema.additionalProperties = true := by
  exact ⟨rfl, by decide⟩

/-- The cumulative effect of the property-loop stores on the state (all
property keys being separator-free, each store is a top-level dict
assignment). -/
def foldStores (rp : String → Schema → Bool → Bool → SVal)
    (req : List String) : List (String × Schema) → St → St
  | [], st => st
  | (k, p) :: rest, st =>
      foldStores rp req rest
        (insertA k (rp k (normTitle k p) (decide (k ∈ req)) false) st)

lemma store_value_key_single {st : St} {k : String} {v : SVal}
    (h : pySplit '.' k = [k]) :
    store_value_key st k v = some (insertA k v st) := by
  rw [store_value_key, h, store_value]

lemma renderProps_eq (rp : String → Schema → Bool → Bool → SVal)
    (req : List String) :
    ∀ (ps : List (String × Schema)) (st : St),
      (∀ kp ∈ ps, pySplit '.' kp.1 = [kp.1]) →
      renderProps rp req ps st =
        some (ps.map (fun kp => (kp.1, normTitle kp.1 kp.2)),
          foldStores rp req ps st) := by
  intro ps
  induction ps with
  | nil => intro st _; rfl
  | cons kp rest ih =>
      obtain ⟨k, p⟩ := kp
      intro st h
      have hk : pySplit '.' k = [k] := h (k, p) (List.mem_cons_self _ _)
      simp only [renderProps, bind, Option.bind,
        store_value_key_single hk]
      rw [ih _ (fun x hx => h x (List.mem_cons_of_mem _ hx))]
      simp [foldStores]

lemma insertA_append_of_none {α : Type} {k : String} {v : α} :
    ∀ {l : List (String × α)}, lookupA k l = none →
      insertA k v l = l ++ [(k, v)] := by
  intro l
  induction l with
  | nil => intro _; rfl
  | cons kv rest ih =>
      obtain ⟨k', v'⟩ := kv
      intro h
      obtain ⟨hk, h'⟩ := lookupA_eq_none_head h
      simp only [insertA, if_neg hk, List.cons_append, List.cons.injEq,
        true_and]
      exact ih h'

lemma insertA_eq_self_of_lookup {α : Type} {k : String} {v : α} :
    ∀ {l : List (String × α)}, lookupA k l = some v → insertA k v l = l := by
  intro l
  induction l with
  | nil => intro h; cases h
  | cons kv rest ih =>
      obtain ⟨k', v'⟩ := kv
      intro h
      by_cases hk : k' = k
      · subst hk
        rw [lookupA, if_pos rfl] at h
        cases h
        simp [insertA]
      · simp only [lookupA, if_neg hk] at h
        simp only [insertA, if_neg hk, List.cons.injEq, true_and]
        exact ih h

lemma lookupA_foldStores_not_mem (rp : String → Schema → Bool → Bool → SVal)
    (req : List String) :
    ∀ (ps : List (String × Schema)) (st : St) (q : String),
      (∀ kp ∈ ps, kp.1 ≠ q) →
      lookupA q (foldStores rp req ps st) = lookupA q st := by
  intro ps
  induction ps with
  | nil => intro st q _; rfl
  | cons kp rest ih =>
      obtain ⟨k, p⟩ := kp
      intro st q h
      rw [foldStores, ih _ q (fun x hx => h x (List.mem_cons_of_mem _ hx)),
        lookupA_insertA_other (Ne.symm (h (k, p) (List.mem_cons_self _ _)))]

lemma lookupA_foldStores_mem (rp : String → Schema → Bool → Bool → SVal)
    (req : List String) :
    ∀ (ps : List (String × Schema)) (st : St) (k : String) (p : Schema),
      (ps.map Prod.fst).Nodup → (k, p) ∈ ps →
      lookupA k (foldStores rp req ps st) =
        some (rp k (normTitle k p) (decide (k ∈ req)) false) := by
  intro ps
  induction ps with
  | nil => intro st k p _ hm; cases hm
  | cons kp rest ih =>
      obtain ⟨k', p'⟩ := kp
      intro st k p hnd hm
      simp only [List.map_cons, List.nodup_cons] at hnd
      obtain ⟨hk', hnd'⟩ := hnd
      rcases List.mem_cons.mp hm with heq | hm'
      · injection heq with h1 h2
        subst h1
        subst h2
        rw [foldStores,
          lookupA_foldStores_not_mem rp req rest _ k
            (fun x hx hxk => hk' (hxk ▸ List.mem_map_of_mem Prod.fst hx)),
          lookupA_insertA_self]
      · rw [foldStores]
        exact ih _ k p hnd' hm'

lemma foldStores_id (rp : String → Schema → Bool → Bool → SVal)
    (req : List String) :
    ∀ (ps : List (String × Schema)) (st : St),
      (∀ kp ∈ ps, lookupA kp.1 st =
        some (rp kp.1 (normTitle kp.1 kp.2) (decide (kp.1 ∈ req)) false)) →
      foldStores rp req ps st = st := by
  intro ps
  induction ps with
  | nil => intro st _; rfl
  | cons kp rest ih =>
      obtain ⟨k, p⟩ := kp
      intro st h
      rw [foldStores,
        insertA_eq_self_of_lookup (h (k, p) (List.mem_cons_self _ _))]
      exact ih st (fun x hx => h x (List.mem_cons_of_mem _ hx))

lemma title_withTitle (t : String) (s : Schema) : (s.withTitle t).title = t := by
  cases s; rfl

lemma withTitle_withTitle (t : String) (s : Schema) :
    (s.withTitle t).withTitle t = s.withTitle t := by
  cases s; rfl

lemma normTitle_idem (k : String) (s : Schema) :
    normTitle k (normTitle k s) = normTitle k s := by
  unfold normTitle
  by_cases h : s.title = ""
  · rw [if_pos h, title_withTitle]
    by_cases h2 : to_title_case k = ""
    · rw [if_pos h2, withTitle_withTitle]
    · rw [if_neg h2]
  · rw [if_neg h, if_neg h]

lemma properties_withProperties (ps : List (String × Schema)) (s : Schema) :
    (s.withProperties ps).properties = ps := by
  cases s; rfl

lemma required_withProperties (ps : List (String × Schema)) (s : Schema) :
    (s.withProperties ps).required = s.required := by
  cases s; rfl

lemma additionalProperties_withProperties (ps : List (String × Schema))
    (s : Schema) :
    (s.withProperties ps).additionalProperties = s.additionalProperties := by
  cases s; rfl

lemma withProperties_withProperties (ps ps' : List (String × Schema))
    (s : Schema) :
    (s.withProperties ps).withProperties ps' = s.withProperties ps' := by
  cases s; rfl

lemma noKeySt_cons {key k : String} {v : SVal} {rest : St} :
    noKeySt key ((k, v) :: rest) = true ↔
      k ≠ key ∧ noKeyV key v = true ∧ noKeySt key rest = true := by
  simp [noKeySt, Bool.and_eq_true, and_assoc]

lemma noKeySt_lookupA_none {key : String} :
    ∀ {l : St}, noKeySt key l = true → lookupA key l = none := by
  intro l
  induction l with
  | nil => intro _; rfl
  | cons kv rest ih =>
      obtain ⟨k, v⟩ := kv
      intro h
      obtain ⟨hk, _, hrest⟩ := noKeySt_cons.mp h
      rw [lookupA, if_neg hk]
      exact ih hrest

lemma noKeySt_insertA {key k : String} {v : SVal}
    (hk : k ≠ key) (hv : noKeyV key v = true) :
    ∀ {acc : St}, noKeySt key acc = true →
      noKeySt key (insertA k v acc) = true := by
  intro acc
  induction acc with
  | nil => intro _; exact noKeySt_cons.mpr ⟨hk, hv, rfl⟩
  | cons kv rest ih =>
      obtain ⟨k', v'⟩ := kv
      intro h
      obtain ⟨hk', hv', hrest⟩ := noKeySt_cons.mp h
      by_cases he : k' = k
      · subst he
        rw [insertA, if_pos rfl]
        exact noKeySt_cons.mpr ⟨hk, hv, hrest⟩
      · rw [insertA, if_neg he]
        exact noKeySt_cons.mpr ⟨hk', hv', ih hrest⟩

lemma noKeyV_sub (key : String) (m : List (String × SVal)) :
    noKeyV key (.sub m) = noKeySt key m := by
  rw [noKeyV]

lemma noKeySt_nil (key : String) : noKeySt key ([] : St) = true := by
  rw [noKeySt]

lemma unpack_preserves_noKey (key : String) :
    ∀ (l : List (String × SVal)) (acc : St),
      noKeySt key l = true → noKeySt key acc = true →
      noKeySt key (unpackEntries key l acc) = true := by
  refine unpackEntries.induct key
    (fun l acc => noKeySt key l = true → noKeySt key acc = true →
      noKeySt key (unpackEntries key l acc) = true)
    (fun l acc => noKeySt key l = true → noKeySt key acc = true →
      noKeySt key (mergeEntries key l acc) = true)
    ?_ ?_ ?_ ?_ ?_ ?_ ?_ ?_
  · intro acc _ hacc
    rw [unpackEntries]
    exact hacc
  · intro rest acc m _ _ hl _
    exact absurd (noKeySt_cons.mp hl).1 (by simp)
  · intro rest acc p _ hl _
    exact absurd (noKeySt_cons.mp hl).1 (by simp)
  · intro k rest acc hk m ihm ihrest hl hacc
    obtain ⟨hk', hv, hrest⟩ := noKeySt_cons.mp hl
    rw [noKeyV_sub] at hv
    have hins : noKeyV key (.sub (unpackEntries key m [])) = true := by
      rw [noKeyV_sub]
      exact ihm hv (noKeySt_nil key)
    rw [unpackEntries, if_neg hk]
    exact ihrest hrest (noKeySt_insertA hk' hins hacc)
  · intro k rest acc hk p ihrest hl hacc
    obtain ⟨hk', hv, hrest⟩ := noKeySt_cons.mp hl
    rw [unpackEntries, if_neg hk]
    exact ihrest hrest (noKeySt_insertA hk' hv hacc)
  · intro acc _ hacc
    rw [mergeEntries]
    exact hacc
  · intro k rest acc m ihm ihrest hl hacc
    obtain ⟨hk', hv, hrest⟩ := noKeySt_cons.mp hl
    rw [noKeyV_sub] at hv
    have hins : noKeyV key (.sub (unpackEntries key m [])) = true := by
      rw [noKeyV_sub]
      exact ihm hv (noKeySt_nil key)
    rw [mergeEntries]
    exact ihrest hrest (noKeySt_insertA hk' hins hacc)
  · intro k rest acc p ihrest hl hacc
    obtain ⟨hk', hv, hrest⟩ := noKeySt_cons.mp hl
    rw [mergeEntries]
    exact ihrest hrest (noKeySt_insertA hk' hv hacc)

lemma unpackEntries_append (key : String) :
    ∀ (l1 l2 : List (String × SVal)) (acc : St),
      unpackEntries key (l1 ++ l2) acc =
        unpackEntries key l2 (unpackEntries key l1 acc) := by
  intro l1
  induction l1 with
  | nil =>
      intro l2 acc
      rw [List.nil_append]
      conv_rhs => rw [unpackEntries]
  | cons kv rest ih =>
      obtain ⟨k, v⟩ := kv
      intro l2 acc
      by_cases hk : k = key
      · subst hk
        match v with
        | .sub m =>
            rw [List.cons_append, unpackEntries, if_pos rfl,
              unpackEntries, if_pos rfl]
            exact ih l2 _
        | .prim p =>
            rw [List.cons_append, unpackEntries, if_pos rfl,
              unpackEntries, if_pos rfl]
            exact ih l2 _
      · match v with
        | .sub m =>
            rw [List.cons_append, unpackEntries, if_neg hk,
              unpackEntries, if_neg hk]
            exact ih l2 _
        | .prim p =>
            rw [List.cons_append, unpackEntries, if_neg hk,
              unpackEntries, if_neg hk]
            exact ih l2 _

lemma lookupA_mergeEntries_not_mem (key : String) :
    ∀ (d : List (String × SVal)) (acc : St) (q : String),
      (∀ kv ∈ d, kv.1 ≠ q) →
      lookupA q (mergeEntries key d acc) = lookupA q acc := by
  intro d
  induction d with
  | nil => intro acc q _; rw [mergeEntries]
  | cons kv rest ih =>
      obtain ⟨k, v⟩ := kv
      intro acc q h
      have hk : k ≠ q := h (k, v) (List.mem_cons_self _ _)
      match v with
      | .sub m =>
          rw [mergeEntries, ih _ q (fun x hx => h x (List.mem_cons_of_mem _ hx)),
            lookupA_insertA_other (Ne.symm hk)]
      | .prim p =>
          rw [mergeEntries, ih _ q (fun x hx => h x (List.mem_cons_of_mem _ hx)),
            lookupA_insertA_other (Ne.symm hk)]

lemma lookupA_mergeEntries_mem (key : String) :
    ∀ (d : List (String × SVal)) (acc : St) (dk : String) (dv : SVal),
      (d.map Prod.fst).Nodup → (dk, dv) ∈ d →
      lookupA dk (mergeEntries key d acc) = some (unpackVal key dv) := by
  intro d
  induction d with
  | nil => intro acc dk dv _ hm; cases hm
  | cons kv rest ih =>
      obtain ⟨k, v⟩ := kv
      intro acc dk dv hnd hm
      simp only [List.map_cons, List.nodup_cons] at hnd
      obtain ⟨hk', hnd'⟩ := hnd
      rcases List.mem_cons.mp hm with heq | hm'
      · injection heq with h1 h2
        subst h1
        subst h2
        have hrest : ∀ kv ∈ rest, kv.1 ≠ dk :=
          fun x hx hxk => hk' (hxk ▸ List.mem_map_of_mem Prod.fst hx)
        match dv with
        | .sub m =>
            rw [mergeEntries, lookupA_mergeEntries_not_mem key rest _ dk hrest,
              lookupA_insertA_self]
            rfl
        | .prim p =>
            rw [mergeEntries, lookupA_mergeEntries_not_mem key rest _ dk hrest,
              lookupA_insertA_self]
            rfl
      · match v with
        | .sub m => rw [mergeEntries]; exact ih _ dk dv hnd' hm'
        | .prim p => rw [mergeEntries]; exact ih _ dk dv hnd' hm'

lemma noKeySt_foldStores (key : String)
    (rp : String → Schema → Bool → Bool → SVal) (req : List String)
    (hrp : ∀ k p r i, noKeyV key (rp k p r i) = true) :
    ∀ (ps : List (String × Schema)) (st : St),
      (∀ kp ∈ ps, kp.1 ≠ key) → noKeySt key st = true →
      noKeySt key (foldStores rp req ps st) = true := by
  intro ps
  induction ps with
  | nil => intro st _ h; exact h
  | cons kp rest ih =>
      obtain ⟨k, p⟩ := kp
      intro st hk hst
      rw [foldStores]
      exact ih _ (fun x hx => hk x (List.mem_cons_of_mem _ hx))
        (noKeySt_insertA (hk (k, p) (List.mem_cons_self _ _))
          (hrp k (normTitle k p) (decide (k ∈ req)) false) hst)

lemma merge_preserves_noKey (key : String) :
    ∀ (d : List (String × SVal)) (acc : St),
      noKeySt key d = true → noKeySt key acc = true →
      noKeySt key (mergeEntries key d acc) = true := by
  refine mergeEntries.induct key
    (fun l acc => noKeySt key l = true → noKeySt key acc = true →
      noKeySt key (unpackEntries key l acc) = true)
    (fun l acc => noKeySt key l = true → noKeySt key acc = true →
      noKeySt key (mergeEntries key l acc) = true)
    ?_ ?_ ?_ ?_ ?_ ?_ ?_ ?_
  · intro acc _ hacc
    rw [unpackEntries]
    exact hacc
  · intro rest acc m _ _ hl _
    exact absurd (noKeySt_cons.mp hl).1 (by simp)
  · intro rest acc p _ hl _
    exact absurd (noKeySt_cons.mp hl).1 (by simp)
  · intro k rest acc hk m ihm ihrest hl hacc
    obtain ⟨hk', hv, hrest⟩ := noKeySt_cons.mp hl
    rw [noKeyV_sub] at hv
    have hins : noKeyV key (.sub (unpackEntries key m [])) = true := by
      rw [noKeyV_sub]
      exact ihm hv (noKeySt_nil key)
    rw [unpackEntries, if_neg hk]
    exact ihrest hrest (noKeySt_insertA hk' hins hacc)
  · intro k rest acc hk p ihrest hl hacc
    obtain ⟨hk', hv, hrest⟩ := noKeySt_cons.mp hl
    rw [unpackEntries, if_neg hk]
    exact ihrest hrest (noKeySt_insertA hk' hv hacc)
  · intro acc _ hacc
    rw [mergeEntries]
    exact hacc
  · intro k rest acc m ihm ihrest hl hacc
    obtain ⟨hk', hv, hrest⟩ := noKeySt_cons.mp hl
    rw [noKeyV_sub] at hv
    have hins : noKeyV key (.sub (unpackEntries key m [])) = true := by
      rw [noKeyV_sub]
      exact ihm hv (noKeySt_nil key)
    rw [mergeEntries]
    exact ihrest hrest (noKeySt_insertA hk' hins hacc)
  · intro k rest acc p ihrest hl hacc
    obtain ⟨hk', hv, hrest⟩ := noKeySt_cons.mp hl
    rw [mergeEntries]
    exact ihrest hrest (noKeySt_insertA hk' hv hacc)

lemma apkey_split :
    pySplit '.' ADDITIONAL_PROPERTIES_KEY = [ADDITIONAL_PROPERTIES_KEY] := by
  decide

/-- C2 (amended): for every schema that declares `additionalProperties`
and at least one declared property (property keys separator-free, distinct
from the reserved sentinel key, and the sentinel key not occurring inside
the prior state nor inside any value the delegated renderers produce),
`render_schema` renders the additional-properties region under the
reserved sentinel key and stores its result in the state, and returns a
value tree in which the sentinel's contents appear in the parent mapping
at the top level while the sentinel key itself appears nowhere in the
returned tree.  (With no declared properties, `render_schema` instead
returns `{}` immediately — see the counterexample.) -/
theorem render_schema_unpacks_sentinel
    (sc : Schema) (rp : String → Schema → Bool → Bool → SVal)
    (ra : String → Schema → Bool → St) (st : St)
    (hne : sc.properties ≠ [])
    (hap : Schema.apTruthy sc.additionalProperties = true)
    (hkeys : ∀ kp ∈ sc.properties, pySplit '.' kp.1 = [kp.1])
    (hpsent : ∀ kp ∈ sc.properties, kp.1 ≠ ADDITIONAL_PROPERTIES_KEY)
    (hstsent : noKeySt ADDITIONAL_PROPERTIES_KEY st = true)
    (hrpsent : ∀ k p r i, noKeyV ADDITIONAL_PROPERTIES_KEY (rp k p r i) = true)
    (hrasent : ∀ k p i, noKeySt ADDITIONAL_PROPERTIES_KEY (ra k p i) = true) :
    ∃ tree st2,
      render_schema sc rp ra st =
        some (tree, st2,
          sc.withProperties
            (sc.properties.map (fun kp => (kp.1, normTitle kp.1 kp.2)))) ∧
      lookupA ADDITIONAL_PROPERTIES_KEY st2 =
        some (.sub (ra ADDITIONAL_PROPERTIES_KEY
          (sc.withProperties
            (sc.properties.map (fun kp => (kp.1, normTitle kp.1 kp.2))))
          false)) ∧
      noKeySt ADDITIONAL_PROPERTIES_KEY tree = true ∧
      (((ra ADDITIONAL_PROPERTIES_KEY
          (sc.withProperties
            (sc.properties.map (fun kp => (kp.1, normTitle kp.1 kp.2))))
          false).map Prod.fst).Nodup →
        ∀ kv ∈ ra ADDITIONAL_PROPERTIES_KEY
          (sc.withProperties
            (sc.properties.map (fun kp => (kp.1, normTitle kp.1 kp.2))))
          false,
          lookupA kv.1 tree =
            some (unpackVal ADDITIONAL_PROPERTIES_KEY kv.2)) := by
  have hie : sc.properties.isEmpty = false := by
    cases h : sc.properties with
    | nil => exact absurd h hne
    | cons a l => rfl
  set key := ADDITIONAL_PROPERTIES_KEY with hkey
  set normProps :=
    sc.properties.map (fun kp => (kp.1, normTitle kp.1 kp.2)) with hnp
  set stP := foldStores rp sc.required sc.properties st with hstP
  set sc' := sc.withProperties normProps with hsc'
  set d := ra key sc' false with hd
  have hstPsent : noKeySt key stP = true :=
    noKeySt_foldStores key rp sc.required hrpsent sc.properties st hpsent hstsent
  have hlkP : lookupA key stP = none := noKeySt_lookupA_none hstPsent
  have hins : insertA key (.sub d) stP = stP ++ [(key, .sub d)] :=
    insertA_append_of_none hlkP
  have hrs : render_schema sc rp ra st =
      some (unpack_additional_properties (insertA key (.sub d) stP) key,
        insertA key (.sub d) stP, sc') := by
    rw [render_schema, hie]
    simp only [Bool.false_eq_true, if_false, bind, Option.bind,
      renderProps_eq rp sc.required sc.properties st hkeys, hap, if_true,
      store_value_key_single apkey_split]
    rfl
  have htree : unpack_additional_properties (insertA key (.sub d) stP) key =
      mergeEntries key d (unpackEntries key stP []) := by
    rw [unpack_additional_properties, hins, unpackEntries_append,
      unpackEntries, if_pos rfl, unpackEntries]
  have htreeP : noKeySt key (unpackEntries key stP []) = true :=
    unpack_preserves_noKey key stP [] hstPsent (noKeySt_nil key)
  have htsent : noKeySt key (mergeEntries key d (unpackEntries key stP [])) = true :=
    merge_preserves_noKey key d _ (hrasent key sc' false) htreeP
  refine ⟨mergeEntries key d (unpackEntries key stP []),
    insertA key (.sub d) stP, ?_, ?_, htsent, ?_⟩
  · rw [hrs, htree]
  · rw [lookupA_insertA_self]
  · intro hnd kv hkv
    exact lookupA_mergeEntries_mem key d _ kv.1 kv.2 hnd hkv

/-- C2 witness: the amended theorem applied at a concrete one-property
schema with `additionalProperties: true`, renderers storing `"n" = 2` and
an additional entry `"x" = 1`, over the empty prior state. -/
theorem render_schema_unpacks_sentinel_witness :
    ∃ tree st2,
      render_schema
          (.mk (some "object") none [] none [] [] [] false
            [("n", Schema.empty)] (some (.bool true)) false none none [] ""
            none none)
          (fun _ _ _ _ => .prim (.int 2))
          (fun _ _ _ => [("x", .prim (.int 1))]) [] =
        some (tree, st2,
          ((.mk (some "object") none [] none [] [] [] false
            [("n", Schema.empty)] (some (.bool true)) false none none [] ""
            none none) : Schema).withProperties
            ([("n", Schema.empty)].map
              (fun kp => (kp.1, normTitle kp.1 kp.2)))) ∧
      lookupA ADDITIONAL_PROPERTIES_KEY st2 =
        some (.sub [("x", .prim (.int 1))]) ∧
      noKeySt ADDITIONAL_PROPERTIES_KEY tree = true ∧
      lookupA "x" tree = some (unpackVal ADDITIONAL_PROPERTIES_KEY (.prim (.int 1))) := by
  have h := render_schema_unpacks_sentinel
    (.mk (some "object") none [] none [] [] [] false
      [("n", Schema.empty)] (some (.bool true)) false none none [] "" none none)
    (fun _ _ _ _ => .prim (.int 2))
    (fun _ _ _ => [("x", .prim (.int 1))]) []
    (by simp [Schema.properties]) (by decide) (by decide) (by decide)
    (by rw [noKeySt])
    (fun _ _ _ _ => by rw [noKeyV])
    (fun _ _ _ => by
      simp only [noKeySt, noKeyV, Bool.and_eq_true, decide_eq_true_eq]
      exact ⟨⟨by decide, trivial⟩, trivial⟩)
  obtain ⟨tree, st2, h1, h2, h3, h4⟩ := h
  refine ⟨tree, st2, h1, h2, h3, ?_⟩
  exact h4 (by decide) ("x", .prim (.int 1)) (List.mem_singleton_self _)

lemma render_schema_eq_ap (sc : Schema)
    (rp : String → Schema → Bool → Bool → SVal)
    (ra : String → Schema → Bool → St) (st : St)
    (hie : sc.properties.isEmpty = false)
    (hkeys : ∀ kp ∈ sc.properties, pySplit '.' kp.1 = [kp.1])
    (hap : Schema.apTruthy sc.additionalProperties = true) :
    render_schema sc rp ra st =
      some (unpack_additional_properties
          (insertA ADDITIONAL_PROPERTIES_KEY
            (.sub (ra ADDITIONAL_PROPERTIES_KEY
              (sc.withProperties
                (sc.properties.map (fun kp => (kp.1, normTitle kp.1 kp.2))))
              false))
            (foldStores rp sc.required sc.properties st))
          ADDITIONAL_PROPERTIES_KEY,
        insertA ADDITIONAL_PROPERTIES_KEY
          (.sub (ra ADDITIONAL_PROPERTIES_KEY
            (sc.withProperties
              (sc.properties.map (fun kp => (kp.1, normTitle kp.1 kp.2))))
            false))
          (foldStores rp sc.required sc.properties st),
        sc.withProperties
          (sc.properties.map (fun kp => (kp.1, normTitle kp.1 kp.2)))) := by
  rw [render_schema, hie]
  simp only [Bool.false_eq_true, if_false, bind, Option.bind,
    renderProps_eq rp sc.required sc.properties st hkeys, hap, if_true,
    store_value_key_single apkey_split]
  rfl

lemma render_schema_eq_noap (sc : Schema)
    (rp : String → Schema → Bool → Bool → SVal)
    (ra : String → Schema → Bool → St) (st : St)
    (hie : sc.properties.isEmpty = false)
    (hkeys : ∀ kp ∈ sc.properties, pySplit '.' kp.1 = [kp.1])
    (hap : Schema.apTruthy sc.additionalProperties = false) :
    render_schema sc rp ra st =
      some (unpack_additional_properties
          (foldStores rp sc.required sc.properties st)
          ADDITIONAL_PROPERTIES_KEY,
        foldStores rp sc.required sc.properties st,
        sc.withProperties
          (sc.properties.map (fun kp => (kp.1, normTitle kp.1 kp.2)))) := by
  rw [render_schema, hie]
  simp only [Bool.false_eq_true, if_false, bind, Option.bind,
    renderProps_eq rp sc.required sc.properties st hkeys, hap, pure]

lemma map_normTitle_idem (ps : List (String × Schema)) :
    (ps.map (fun kp => (kp.1, normTitle kp.1 kp.2))).map
        (fun kp => (kp.1, normTitle kp.1 kp.2)) =
      ps.map (fun kp => (kp.1, normTitle kp.1 kp.2)) := by
  rw [List.map_map]
  exact List.map_congr_left
    (fun kp _ => by simp [Function.comp, normTitle_idem])

lemma map_fst_normTitle (ps : List (String × Schema)) :
    (ps.map (fun kp => (kp.1, normTitle kp.1 kp.2))).map Prod.fst =
      ps.map Prod.fst := by
  rw [List.map_map]
  exact List.map_congr_left (fun kp _ => rfl)

/-- C3: invoking `render_schema` a second time on the resulting
(title-normalized) schema against the unchanged state store, with the
delegated per-property and additional-properties renderers fixed functions
of their arguments and no user edits in between, returns the same value
tree — indeed the same tree, state and schema — as the first invocation
(property keys separator-free, pairwise distinct, and distinct from the
reserved sentinel key). -/
theorem render_schema_idempotent
    (sc : Schema) (rp : String → Schema → Bool → Bool → SVal)
    (ra : String → Schema → Bool → St) (st : St) (t1 st1 : St) (sc1 : Schema)
    (hkeys : ∀ kp ∈ sc.properties, pySplit '.' kp.1 = [kp.1])
    (hnodup : (sc.properties.map Prod.fst).Nodup)
    (hpsent : ∀ kp ∈ sc.properties, kp.1 ≠ ADDITIONAL_PROPERTIES_KEY)
    (h1 : render_schema sc rp ra st = some (t1, st1, sc1)) :
    render_schema sc1 rp ra st1 = some (t1, st1, sc1) := by
  by_cases hps : sc.properties.isEmpty = true
  · rw [render_schema, hps, if_pos rfl] at h1
    simp only [Option.some.injEq, Prod.mk.injEq] at h1
    obtain ⟨rfl, rfl, rfl⟩ := h1
    rw [render_schema, hps, if_pos rfl]
  · have hie : sc.properties.isEmpty = false := by
      cases h : sc.properties.isEmpty
      · rfl
      · exact absurd h hps
    have hkeys' : ∀ kp ∈ sc.properties.map
        (fun kp => (kp.1, normTitle kp.1 kp.2)), pySplit '.' kp.1 = [kp.1] := by
      intro kp hkp
      rw [List.mem_map] at hkp
      obtain ⟨kq, hkq, rfl⟩ := hkp
      exact hkeys kq hkq
    have hpie : ((sc.withProperties (sc.properties.map
        (fun kp => (kp.1, normTitle kp.1 kp.2)))).properties).isEmpty = false := by
      rw [properties_withProperties]
      cases h : sc.properties with
      | nil => rw [h] at hie; exact absurd hie (by simp)
      | cons a l => rfl
    have hpkeys : ∀ kp ∈ (sc.withProperties (sc.properties.map
        (fun kp => (kp.1, normTitle kp.1 kp.2)))).properties,
        pySplit '.' kp.1 = [kp.1] := by
      rw [properties_withProperties]
      exact hkeys'
    by_cases hap : Schema.apTruthy sc.additionalProperties = true
    · rw [render_schema_eq_ap sc rp ra st hie hkeys hap] at h1
      simp only [Option.some.injEq, Prod.mk.injEq] at h1
      obtain ⟨rfl, rfl, rfl⟩ := h1
      have hap' : Schema.apTruthy (sc.withProperties (sc.properties.map
          (fun kp => (kp.1, normTitle kp.1 kp.2)))).additionalProperties = true := by
        rw [additionalProperties_withProperties]
        exact hap
      have hfold : foldStores rp
          (sc.withProperties (sc.properties.map
            (fun kp => (kp.1, normTitle kp.1 kp.2)))).required
          (sc.properties.map (fun kp => (kp.1, normTitle kp.1 kp.2)))
          (insertA ADDITIONAL_PROPERTIES_KEY
            (.sub (ra ADDITIONAL_PROPERTIES_KEY
              (sc.withProperties (sc.properties.map
                (fun kp => (kp.1, normTitle kp.1 kp.2)))) false))
            (foldStores rp sc.required sc.properties st)) =
          insertA ADDITIONAL_PROPERTIES_KEY
            (.sub (ra ADDITIONAL_PROPERTIES_KEY
              (sc.withProperties (sc.properties.map
                (fun kp => (kp.1, normTitle kp.1 kp.2)))) false))
            (foldStores rp sc.required sc.properties st) := by
        rw [required_withProperties]
        apply foldStores_id
        intro kp hkp
        rw [List.mem_map] at hkp
        obtain ⟨⟨k, p⟩, hmem, rfl⟩ := hkp
        rw [normTitle_idem,
          lookupA_insertA_other (hpsent (k, p) hmem),
          lookupA_foldStores_mem rp sc.required sc.properties st k p hnodup hmem]
      rw [render_schema_eq_ap _ rp ra _ hpie hpkeys hap',
        properties_withProperties, map_normTitle_idem,
        withProperties_withProperties, hfold,
        insertA_eq_self_of_lookup (lookupA_insertA_self _ _ _)]
    · have hapf : Schema.apTruthy sc.additionalProperties = false := by
        cases h : Schema.apTruthy sc.additionalProperties
        · rfl
        · exact absurd h hap
      rw [render_schema_eq_noap sc rp ra st hie hkeys hapf] at h1
      simp only [Option.some.injEq, Prod.mk.injEq] at h1
      obtain ⟨rfl, rfl, rfl⟩ := h1
      have hapf' : Schema.apTruthy (sc.withProperties (sc.properties.map
          (fun kp => (kp.1, normTitle kp.1 kp.2)))).additionalProperties = false := by
        rw [additionalProperties_withProperties]
        exact hapf
      have hfold : foldStores rp
          (sc.withProperties (sc.properties.map
            (fun kp => (kp.1, normTitle kp.1 kp.2)))).required
          (sc.properties.map (fun kp => (kp.1, normTitle kp.1 kp.2)))
          (foldStores rp sc.required sc.properties st) =
          foldStores rp sc.required sc.properties st := by
        rw [required_withProperties]
        apply foldStores_id
        intro kp hkp
        rw [List.mem_map] at hkp
        obtain ⟨⟨k, p⟩, hmem, rfl⟩ := hkp
        rw [normTitle_idem,
          lookupA_foldStores_mem rp sc.required sc.properties st k p hnodup hmem]
      rw [render_schema_eq_noap _ rp ra _ hpie hpkeys hapf',
        properties_withProperties, map_normTitle_idem,
        withProperties_withProperties, hfold]

/-- C3 witness: on a concrete one-property schema (with a preset title and
`additionalProperties: true`), first walk from the empty state, then a
second walk on the resulting schema and state: the second walk returns the
same value tree, state and schema. -/
theorem render_schema_idempotent_witness :
    ∃ (t s : St) (c : Schema),
      render_schema
          (.mk (some "object") none [] none [] [] [] false
            [("n", .mk none none [] none [] [] [] false [] none false none
              none [] "N" none none)]
            (some (.bool true)) false none none [] "" none none)
          (fun _ _ _ _ => .prim (.int 2))
          (fun _ _ _ => [("x", .prim (.int 1))]) [] = some (t, s, c) ∧
      render_schema c (fun _ _ _ _ => .prim (.int 2))
          (fun _ _ _ => [("x", .prim (.int 1))]) s = some (t, s, c) := by
  have h1 := render_schema_eq_ap
    (.mk (some "object") none [] none [] [] [] false
      [("n", .mk none none [] none [] [] [] false [] none false none
        none [] "N" none none)]
      (some (.bool true)) false none none [] "" none none)
    (fun _ _ _ _ => .prim (.int 2))
    (fun _ _ _ => [("x", .prim (.int 1))]) []
    (by decide) (by decide) (by decide)
  exact ⟨_, _, _, h1,
    render_schema_idempotent _ _ _ _ _ _ _ (by decide) (by decide)
      (by decide) h1⟩
